import Mathlib

/-!
Shallow embedding of the `gokh4nozturk/json-parser` repository (Rust).

The lexer (`src/lexer.rs`) is embedded as state-passing functions over the
remaining input, a `List Char` (the `Peekable<Chars>` cursor of the source).
The parser (`src/parser.rs`) is embedded as fuel-indexed mutually recursive
functions over a `Parser` state holding the one-token lookahead and the
lexer's remaining input; `none` means "out of fuel" and is proved
unreachable for the fuel used by `parse_json`.

Rust's `f64` is modelled by exact rationals (`ℚ`): `number_str.parse::<f64>()`
is modelled by `parseF64`, which computes the exact decimal value of the
numeric string (double rounding is the only behaviour abstracted away).
`HashMap<String, JsonValue>` is modelled by an association list with
`HashMap::insert` semantics (`hmInsert`: overwrite if present, else append).
-/

/-- Error taxonomy of `src/error.rs` (`enum JsonError`). -/
inductive JsonError : Type where
  | UnexpectedToken (s : String)
  | UnexpectedEof
  | InvalidNumber (s : String)
  | InvalidEscapeSequence (s : String)
  | InvalidUnicodeSequence (s : String)
  deriving DecidableEq, Repr

/-- Token type of `src/lexer.rs` (`enum Token`); `Number` carries the exact
rational value of the `f64` the source stores. -/
inductive Token : Type where
  | Null
  | Boolean (b : Bool)
  | Number (q : ℚ)
  | String (s : String)
  | LeftBrace
  | RightBrace
  | LeftBracket
  | RightBracket
  | Colon
  | Comma
  deriving DecidableEq, Repr

/-- Value model of `src/main.rs` (`enum JsonValue`); `Object` models
`HashMap<String, JsonValue>` as an association list. -/
inductive JsonValue : Type where
  | Null
  | Boolean (b : Bool)
  | Number (q : ℚ)
  | String (s : String)
  | Array (elems : List JsonValue)
  | Object (fields : List (String × JsonValue))

/-- Embeds `HashMap::insert` on the association-list model: overwrite the binding
of the key when present, else append the new binding. -/
def hmInsert (m : List (String × JsonValue)) (k : String) (v : JsonValue) :
    List (String × JsonValue) :=
  if m.any (fun p => p.1 = k) then
    m.map (fun p => if p.1 = k then (k, v) else p)
  else
    m ++ [(k, v)]

/-- Embeds `HashMap::get` on the association-list model. -/
def hmGet (m : List (String × JsonValue)) (k : String) : Option JsonValue :=
  (m.find? (fun p => p.1 = k)).map (fun p => p.2)

/-- Rust's `char::is_whitespace`: membership in the Unicode `White_Space`
set (the full list of `White_Space` code points). -/
def isRustWhitespace (c : Char) : Bool :=
  let n := c.toNat
  (9 ≤ n && n ≤ 13) || n = 32 || n = 133 || n = 160 || n = 5760 ||
  (8192 ≤ n && n ≤ 8202) || n = 8232 || n = 8233 || n = 8239 || n = 8287 ||
  n = 12288

/-- Embeds `Lexer::skip_whitespace` (`src/lexer.rs:74-82`): drop the longest
whitespace prefix of the remaining input. -/
def skip_whitespace : List Char → List Char
  | [] => []
  | c :: rest => if isRustWhitespace c then skip_whitespace rest else c :: rest

/-- Value of one digit of radix 16, as in Rust's `char::to_digit(16)`
used by `u32::from_str_radix`. -/
def hexVal (c : Char) : Option Nat :=
  if '0' ≤ c ∧ c ≤ '9' then some (c.toNat - 48)
  else if 'a' ≤ c ∧ c ≤ 'f' then some (c.toNat - 87)
  else if 'A' ≤ c ∧ c ≤ 'F' then some (c.toNat - 55)
  else none

/-- Fold a list of hex digits left-to-right; `none` as soon as one
character is not a hex digit. -/
def hexFold : List Char → Nat → Option Nat
  | [], acc => some acc
  | c :: rest, acc =>
    match hexVal c with
    | some d => hexFold rest (16 * acc + d)
    | none => none

/-- Rust's `u32::from_str_radix(s, 16)` for unsigned targets: an optional
leading `+` sign followed by one or more radix-16 digits (a leading `-` is
not accepted for `u32`); the 4-character strings fed to it here never
overflow `u32`. -/
def fromStrRadix16 (s : List Char) : Option Nat :=
  match s with
  | [] => none
  | '+' :: rest => if rest.isEmpty then none else hexFold rest 0
  | _ => hexFold s 0

/-- Embeds `Lexer::read_string` (`src/lexer.rs:84-147`), after the opening quote
has been consumed: scan until an unescaped `"` and decode escapes;
`string` is the accumulated decoded text. -/
def read_string (string : String) : List Char → Except JsonError (Token × List Char)
  | [] => .error .UnexpectedEof
  | c :: rest =>
    if c = '"' then .ok (.String string, rest)
    else if c = '\\' then
      match rest with
      | [] => .error .UnexpectedEof
      | e :: rest2 =>
        if e = '"' then read_string (string.push '"') rest2
        else if e = '\\' then read_string (string.push '\\') rest2
        else if e = '/' then read_string (string.push '/') rest2
        else if e = 'b' then read_string (string.push '\x08') rest2
        else if e = 'f' then read_string (string.push '\x0C') rest2
        else if e = 'n' then read_string (string.push '\n') rest2
        else if e = 'r' then read_string (string.push '\r') rest2
        else if e = 't' then read_string (string.push '\t') rest2
        else if e = 'u' then
          match rest2 with
          | h1 :: h2 :: h3 :: h4 :: rest3 =>
            match fromStrRadix16 [h1, h2, h3, h4] with
            | some cp =>
              if h : cp.isValidChar then
                read_string (string.push (Char.ofNatAux cp h)) rest3
              else
                .error (.InvalidUnicodeSequence (String.mk [h1, h2, h3, h4]))
            | none => .error (.InvalidUnicodeSequence (String.mk [h1, h2, h3, h4]))
          | partial4 => .error (.InvalidUnicodeSequence (String.mk partial4))
        else .error (.InvalidEscapeSequence (String.mk [e]))
    else read_string (string.push c) rest

/-- The character-comparison loop shared by `read_null`/`read_boolean`
(`for expected_char in expected.chars() { match self.input.next() ... }`). -/
def expect_chars : List Char → List Char → Except JsonError (List Char)
  | [], input => .ok input
  | _ :: _, [] => .error .UnexpectedEof
  | e :: es, c :: rest =>
    if c = e then expect_chars es rest
    else .error (.UnexpectedToken (String.mk [c]))

/-- Embeds `Lexer::read_null` (`src/lexer.rs:149-163`): the leading `n` is consumed
without comparison, then `ull` is matched character by character. -/
def read_null (input : List Char) : Except JsonError (Option Token × List Char) :=
  match expect_chars ['u', 'l', 'l'] (input.drop 1) with
  | .ok rest => .ok (some .Null, rest)
  | .error e => .error e

/-- Embeds `Lexer::read_boolean` (`src/lexer.rs:165-195`): peek decides `true` or
`false`, then the whole literal is matched character by character. -/
def read_boolean (input : List Char) : Except JsonError (Option Token × List Char) :=
  match input with
  | 't' :: _ =>
    match expect_chars ['t', 'r', 'u', 'e'] input with
    | .ok rest => .ok (some (.Boolean true), rest)
    | .error e => .error e
  | 'f' :: _ =>
    match expect_chars ['f', 'a', 'l', 's', 'e'] input with
    | .ok rest => .ok (some (.Boolean false), rest)
    | .error e => .error e
  | _ => .error (.UnexpectedToken "Expected 'true' or 'false'")

/-- Embeds `Lexer::read_digits` (`src/lexer.rs:236-255`): consume the maximal run
of decimal digits, appending them to `number_str`; an empty run is an
`InvalidNumber` error. -/
def read_digits (number_str : List Char) (input : List Char) :
    Except JsonError (List Char × List Char) :=
  let ds := input.takeWhile (fun c => c.isDigit)
  if ds.isEmpty then .error (.InvalidNumber "Expected at least one digit")
  else .ok (number_str ++ ds, input.drop ds.length)

/-- Exact value of a digit run read most-significant first. -/
def digitsToNat (ds : List Char) : Nat :=
  ds.foldl (fun a c => 10 * a + (c.toNat - 48)) 0

/-- Sign handling of `str::parse::<f64>` (optional `-` or `+`). -/
def parseF64_sign (s : List Char) : Int × List Char :=
  match s with
  | '-' :: r => (-1, r)
  | '+' :: r => (1, r)
  | _ => (1, s)

/-- Fraction part of `str::parse::<f64>`: an optional `.` followed by a
digit run. -/
def parseF64_frac (s2 : List Char) : List Char × List Char :=
  match s2 with
  | '.' :: r =>
    (r.takeWhile (fun c => c.isDigit), r.drop (r.takeWhile (fun c => c.isDigit)).length)
  | _ => ([], s2)

/-- Exponent sign of `str::parse::<f64>`. -/
def parseF64_esign (r : List Char) : Bool × List Char :=
  match r with
  | '-' :: r2 => (true, r2)
  | '+' :: r2 => (false, r2)
  | _ => (false, r)

/-- Exponent part of `str::parse::<f64>`, applied to the exact mantissa
fraction `mantNum / mantDen`. -/
def parseF64_tail (mantNum : Int) (mantDen : Nat) (s3 : List Char) : Option ℚ :=
  match s3 with
  | [] => some (Rat.divInt mantNum mantDen)
  | c :: r =>
    if c = 'e' ∨ c = 'E' then
      let (esgn, r1) := parseF64_esign r
      let ed := r1.takeWhile (fun c => c.isDigit)
      if ed.isEmpty ∨ ¬(r1.drop ed.length).isEmpty then none
      else
        if esgn then some (Rat.divInt mantNum (mantDen * 10 ^ digitsToNat ed))
        else some (Rat.divInt (mantNum * (10 : Int) ^ digitsToNat ed) mantDen)
    else none

/-- Model of `number_str.parse::<f64>()` restricted to the decimal shapes
`read_number` can produce, idealised to the exact rational value of the
literal (IEEE rounding is abstracted away): optional sign, a nonempty
integer digit run, an optional fraction introduced by `.`, an optional
exponent introduced by `e`/`E` with optional sign. The value is assembled
as one quotient of integers so that it reduces inside the kernel. -/
def parseF64 (s : List Char) : Option ℚ :=
  let (sgn, s1) := parseF64_sign s
  let ip := s1.takeWhile (fun c => c.isDigit)
  let s2 := s1.drop ip.length
  if ip.isEmpty then none
  else
    let (fp, s3) := parseF64_frac s2
    parseF64_tail (sgn * (digitsToNat (ip ++ fp) : Int)) (10 ^ fp.length) s3

/-- Sign step of `Lexer::read_number` (`src/lexer.rs:200-203`). -/
def read_number_sign (input : List Char) : List Char × List Char :=
  match input with
  | '-' :: rest => (['-'], rest)
  | _ => ([], input)

/-- Fractional-part step of `Lexer::read_number` (`src/lexer.rs:208-212`). -/
def read_number_frac (ns1 in1 : List Char) : Except JsonError (List Char × List Char) :=
  match in1 with
  | '.' :: rest => read_digits (ns1 ++ ['.']) rest
  | _ => .ok (ns1, in1)

/-- Exponent step of `Lexer::read_number` (`src/lexer.rs:214-228`). -/
def read_number_exp (ns2 in2 : List Char) : Except JsonError (List Char × List Char) :=
  match in2 with
  | c :: rest =>
    if c = 'e' ∨ c = 'E' then
      match rest with
      | s :: rest2 =>
        if s = '+' ∨ s = '-' then read_digits (ns2 ++ [c, s]) rest2
        else read_digits (ns2 ++ [c]) rest
      | [] => read_digits (ns2 ++ [c]) []
    else .ok (ns2, in2)
  | [] => .ok (ns2, in2)

/-- Embeds `Lexer::read_number` (`src/lexer.rs:197-234`): optional `-`,
integer digit run, optional `.` + digit run, optional `e`/`E` + optional
sign + digit run; the accumulated `number_str` is then parsed as a
float. -/
def read_number (input : List Char) : Except JsonError (Option Token × List Char) :=
  let (ns0, in0) := read_number_sign input
  match read_digits ns0 in0 with
  | .error e => .error e
  | .ok (ns1, in1) =>
    match read_number_frac ns1 in1 with
    | .error e => .error e
    | .ok (ns2, in2) =>
      match read_number_exp ns2 in2 with
      | .error e => .error e
      | .ok (ns3, in3) =>
        match parseF64 ns3 with
        | some q => .ok (some (.Number q), in3)
        | none => .error (.InvalidNumber (String.mk ns3))

/-- Embeds `Lexer::next_token` (`src/lexer.rs:30-72`): skip whitespace, then
dispatch on the first remaining character; `none` is the end-of-input
signal, distinct from an error. -/
def next_token (input : List Char) : Except JsonError (Option Token × List Char) :=
  match skip_whitespace input with
  | [] => .ok (none, [])
  | c :: rest =>
    if c = '\x7b' then .ok (some .LeftBrace, rest)
    else if c = '\x7d' then .ok (some .RightBrace, rest)
    else if c = '[' then .ok (some .LeftBracket, rest)
    else if c = ']' then .ok (some .RightBracket, rest)
    else if c = ':' then .ok (some .Colon, rest)
    else if c = ',' then .ok (some .Comma, rest)
    else if c = '"' then
      match read_string "" rest with
      | .ok (t, r) => .ok (some t, r)
      | .error e => .error e
    else if c = 'n' then read_null (c :: rest)
    else if c = 't' ∨ c = 'f' then read_boolean (c :: rest)
    else if c.isDigit ∨ c = '-' then read_number (c :: rest)
    else .error (.UnexpectedToken (String.mk [c]))

/-- Rust's derived `Debug` rendering of a token, used by the parser's
`format!("{:?}", token)` error messages; the exact float formatting of
`Number` is abstracted to the rational's string form (no claim depends on
these payloads). -/
def tokenDebugRepr : Token → String
  | .Null => "Null"
  | .Boolean b => if b then "Boolean(true)" else "Boolean(false)"
  | .Number q => "Number(" ++ toString q ++ ")"
  | .String s => "String(\"" ++ s ++ "\")"
  | .LeftBrace => "LeftBrace"
  | .RightBrace => "RightBrace"
  | .LeftBracket => "LeftBracket"
  | .RightBracket => "RightBracket"
  | .Colon => "Colon"
  | .Comma => "Comma"

/-- Parser state of `src/parser.rs` (`struct Parser`): the one-token
lookahead and the lexer's remaining input. -/
structure Parser : Type where
  current_token : Option Token
  input : List Char
  deriving Repr

/-- Embeds `Parser::advance_token` (`src/parser.rs:35-38`). -/
def advance_token (p : Parser) : Except JsonError Parser :=
  match next_token p.input with
  | .ok (tok, rest) => .ok ⟨tok, rest⟩
  | .error e => .error e

/-- Termination measure for the recursive descent: remaining characters
plus one for a pending lookahead token. -/
def Parser.size (p : Parser) : Nat :=
  p.input.length + (if p.current_token.isSome then 1 else 0)

/-!
Embedding of `Parser::parse_value` / `parse_object` / `parse_array`
(`src/parser.rs:40-188`), fuel-indexed; the object/array loops are split
into a `loop` stage (key/colon/value of one iteration) and a `sep` stage
(the comma-or-closing-delimiter check ending one iteration), mirroring the
source's single loop body. `none` means the fuel ran out and is proved
unreachable for the fuel `Parser.parse` supplies.
-/
mutual

def parse_value : Nat → Parser → Option (Except JsonError (JsonValue × Parser))
  | 0, _ => none
  | n + 1, p =>
    match p.current_token with
    | some .Null =>
      match advance_token p with
      | .ok p' => some (.ok (.Null, p'))
      | .error e => some (.error e)
    | some (.Boolean b) =>
      match advance_token p with
      | .ok p' => some (.ok (.Boolean b, p'))
      | .error e => some (.error e)
    | some (.Number q) =>
      match advance_token p with
      | .ok p' => some (.ok (.Number q, p'))
      | .error e => some (.error e)
    | some (.String s) =>
      match advance_token p with
      | .ok p' => some (.ok (.String s, p'))
      | .error e => some (.error e)
    | some .LeftBrace => parse_object n p
    | some .LeftBracket => parse_array n p
    | some t => some (.error (.UnexpectedToken (tokenDebugRepr t)))
    | none => some (.error .UnexpectedEof)

def parse_object : Nat → Parser → Option (Except JsonError (JsonValue × Parser))
  | 0, _ => none
  | n + 1, p =>
    match advance_token p with
    | .error e => some (.error e)
    | .ok p1 =>
      match p1.current_token with
      | some .RightBrace =>
        match advance_token p1 with
        | .ok p2 => some (.ok (.Object [], p2))
        | .error e => some (.error e)
      | _ => parse_object_loop n p1 []

def parse_object_loop : Nat → Parser → List (String × JsonValue) →
    Option (Except JsonError (JsonValue × Parser))
  | 0, _, _ => none
  | n + 1, p, obj =>
    match p.current_token with
    | some (.String key) =>
      match advance_token p with
      | .error e => some (.error e)
      | .ok p1 =>
        match p1.current_token with
        | some .Colon =>
          match advance_token p1 with
          | .error e => some (.error e)
          | .ok p2 =>
            match parse_value n p2 with
            | none => none
            | some (.error e) => some (.error e)
            | some (.ok (v, p3)) => parse_object_sep n p3 (hmInsert obj key v)
        | some t =>
          some (.error (.UnexpectedToken ("Expected ':', got " ++ tokenDebugRepr t)))
        | none => some (.error .UnexpectedEof)
    | some t =>
      some (.error (.UnexpectedToken ("Expected string key, got " ++ tokenDebugRepr t)))
    | none => some (.error .UnexpectedEof)

def parse_object_sep : Nat → Parser → List (String × JsonValue) →
    Option (Except JsonError (JsonValue × Parser))
  | 0, _, _ => none
  | n + 1, p, obj =>
    match p.current_token with
    | some .Comma =>
      match advance_token p with
      | .error e => some (.error e)
      | .ok p1 =>
        match p1.current_token with
        | some .RightBrace =>
          some (.error (.UnexpectedToken "Trailing comma in object"))
        | _ => parse_object_loop n p1 obj
    | some .RightBrace =>
      match advance_token p with
      | .ok p1 => some (.ok (.Object obj, p1))
      | .error e => some (.error e)
    | some t =>
      some (.error (.UnexpectedToken ("Expected ',' or '\x7d', got " ++ tokenDebugRepr t)))
    | none => some (.error .UnexpectedEof)

def parse_array : Nat → Parser → Option (Except JsonError (JsonValue × Parser))
  | 0, _ => none
  | n + 1, p =>
    match advance_token p with
    | .error e => some (.error e)
    | .ok p1 =>
      match p1.current_token with
      | some .RightBracket =>
        match advance_token p1 with
        | .ok p2 => some (.ok (.Array [], p2))
        | .error e => some (.error e)
      | _ => parse_array_loop n p1 []

def parse_array_loop : Nat → Parser → List JsonValue →
    Option (Except JsonError (JsonValue × Parser))
  | 0, _, _ => none
  | n + 1, p, arr =>
    match parse_value n p with
    | none => none
    | some (.error e) => some (.error e)
    | some (.ok (v, p1)) => parse_array_sep n p1 (arr ++ [v])

def parse_array_sep : Nat → Parser → List JsonValue →
    Option (Except JsonError (JsonValue × Parser))
  | 0, _, _ => none
  | n + 1, p, arr =>
    match p.current_token with
    | some .Comma =>
      match advance_token p with
      | .error e => some (.error e)
      | .ok p1 =>
        match p1.current_token with
        | some .RightBracket =>
          some (.error (.UnexpectedToken "Trailing comma in array"))
        | _ => parse_array_loop n p1 arr
    | some .RightBracket =>
      match advance_token p with
      | .ok p1 => some (.ok (.Array arr, p1))
      | .error e => some (.error e)
    | some t =>
      some (.error (.UnexpectedToken ("Expected ',' or ']', got " ++ tokenDebugRepr t)))
    | none => some (.error .UnexpectedEof)

end

/-- Embeds `Parser::parse` (`src/parser.rs:22-33`): parse one value, then require
that no lookahead token remains. The fuel `3 * p.size + 2` is sufficient
(`parsers_fuel_sufficient` below), so the `none` fallback is unreachable. -/
def Parser.parse (p : Parser) : Except JsonError JsonValue :=
  match parse_value (3 * p.size + 2) p with
  | some (.ok (v, p')) =>
    if p'.current_token.isSome then .error (.UnexpectedToken "Expected end of input")
    else .ok v
  | some (.error e) => .error e
  | none => .error .UnexpectedEof

/-- Embeds `parse_json` (`src/parser.rs:192-195`): `Parser::new` primes one token
of lookahead, then `parse` runs. -/
def parse_json (s : List Char) : Except JsonError JsonValue :=
  match next_token s with
  | .ok (tok, rest) => Parser.parse ⟨tok, rest⟩
  | .error e => .error e

/-! Length bounds on the lexer: every successful token read strictly
shortens the remaining input. -/

lemma skip_whitespace_length_le (l : List Char) :
    (skip_whitespace l).length ≤ l.length := by
  induction l with
  | nil => simp [skip_whitespace]
  | cons c rest ih =>
    simp only [skip_whitespace]
    split
    · exact Nat.le_succ_of_le ih
    · simp

lemma expect_chars_ok_length (es : List Char) :
    ∀ input rest, expect_chars es input = .ok rest →
      rest.length + es.length = input.length := by
  induction es with
  | nil =>
    intro input rest h
    simp [expect_chars] at h
    simp [h]
  | cons e es ih =>
    intro input rest h
    cases input with
    | nil => simp [expect_chars] at h
    | cons c cs =>
      simp only [expect_chars] at h
      split at h
      · have := ih cs rest h
        simp
        omega
      · simp at h

lemma read_string_ok_length :
    ∀ (n : Nat) (input : List Char), input.length ≤ n →
      ∀ (acc : String) (t : Token) (rest : List Char),
        read_string acc input = .ok (t, rest) → rest.length < input.length := by
  intro n
  induction n with
  | zero =>
    intro input hle acc t rest h
    have : input = [] := List.eq_nil_of_length_eq_zero (Nat.le_zero.mp hle)
    subst this
    rw [read_string.eq_def] at h; simp at h
  | succ n ih =>
    intro input hle acc t rest h
    rcases input with _ | ⟨c, rest1⟩
    · rw [read_string.eq_def] at h; simp at h
    · rw [read_string.eq_def] at h; simp only at h
      by_cases hq : c = '"'
      · simp [hq] at h
        obtain ⟨-, h2⟩ := h
        subst h2
        simp
      · simp only [hq, if_false] at h
        by_cases hb : c = '\\'
        · simp only [hb, if_true] at h
          rcases rest1 with _ | ⟨e, rest2⟩
          · simp at h
          · simp only at h
            have hrec2 : ∀ acc', read_string acc' rest2 = .ok (t, rest) →
                rest.length < (c :: e :: rest2).length := by
              intro acc' h'
              have := ih rest2 (by simp at hle; omega) acc' t rest h'
              simp
              omega
            by_cases h1 : e = '"'
            · simp only [h1, if_true] at h; exact hrec2 _ h
            · simp only [h1, if_false] at h
              by_cases h2 : e = '\\'
              · simp only [h2, if_true] at h; exact hrec2 _ h
              · simp only [h2, if_false] at h
                by_cases h3 : e = '/'
                · simp only [h3, if_true] at h; exact hrec2 _ h
                · simp only [h3, if_false] at h
                  by_cases h4 : e = 'b'
                  · simp only [h4, if_true] at h; exact hrec2 _ h
                  · simp only [h4, if_false] at h
                    by_cases h5 : e = 'f'
                    · simp only [h5, if_true] at h; exact hrec2 _ h
                    · simp only [h5, if_false] at h
                      by_cases h6 : e = 'n'
                      · simp only [h6, if_true] at h; exact hrec2 _ h
                      · simp only [h6, if_false] at h
                        by_cases h7 : e = 'r'
                        · simp only [h7, if_true] at h; exact hrec2 _ h
                        · simp only [h7, if_false] at h
                          by_cases h8 : e = 't'
                          · simp only [h8, if_true] at h; exact hrec2 _ h
                          · simp only [h8, if_false] at h
                            by_cases h9 : e = 'u'
                            · simp only [h9, if_true] at h
                              rcases rest2 with _ | ⟨a1, _ | ⟨a2, _ | ⟨a3, _ | ⟨a4, rest3⟩⟩⟩⟩
                              · simp at h
                              · simp at h
                              · simp at h
                              · simp at h
                              · simp only at h
                                split at h
                                · split at h
                                  · have := ih rest3 (by simp at hle; omega) _ t rest h
                                    simp
                                    omega
                                  · simp at h
                                · simp at h
                            · simp [h9] at h
        · simp only [hb, if_false] at h
          have := ih rest1 (by simp at hle; omega) _ t rest h
          simp
          omega

lemma read_digits_ok (ns input ns' rest) :
    read_digits ns input = .ok (ns', rest) →
      ns' = ns ++ input.takeWhile (fun c => c.isDigit) ∧
      rest = input.drop (input.takeWhile (fun c => c.isDigit)).length ∧
      ¬(input.takeWhile (fun c => c.isDigit)).isEmpty := by
  intro h
  simp only [read_digits] at h
  split at h
  · simp at h
  · rename_i hne
    simp at h
    exact ⟨h.1.symm, h.2.symm, hne⟩

lemma takeWhile_length_le (p : Char → Bool) (l : List Char) :
    (l.takeWhile p).length ≤ l.length := by
  induction l with
  | nil => simp
  | cons a l ih =>
    rw [List.takeWhile_cons]
    split
    · simpa using ih
    · simp

lemma read_digits_ok_length (ns input ns' rest) :
    read_digits ns input = .ok (ns', rest) → rest.length < input.length := by
  intro h
  obtain ⟨-, hrest, hne⟩ := read_digits_ok ns input ns' rest h
  subst hrest
  have h1 : (input.takeWhile (fun c => c.isDigit)).length ≤ input.length :=
    takeWhile_length_le _ _
  have h2 : 0 < (input.takeWhile (fun c => c.isDigit)).length := by
    cases hT : input.takeWhile (fun c => c.isDigit) with
    | nil => simp [hT] at hne
    | cons a l => simp [hT]
  have h3 : 0 < input.length := by
    cases input with
    | nil => simp at hne
    | cons a l => simp
  simp only [List.length_drop]
  omega

lemma read_number_ok_facts (input : List Char) (tok : Option Token) (rest : List Char) :
    read_number input = .ok (tok, rest) → rest.length < input.length ∧ tok.isSome := by
  intro h
  unfold read_number at h
  rcases hs : read_number_sign input with ⟨ns0, in0⟩
  rw [hs] at h
  simp only at h
  have hle0 : in0.length ≤ input.length := by
    unfold read_number_sign at hs
    split at hs
    · rcases hs with ⟨-, rfl⟩
      simp
    · rcases hs with ⟨-, rfl⟩
      exact le_refl _
  cases hd1 : read_digits ns0 in0 with
  | error e => rw [hd1] at h; simp at h
  | ok pr1 =>
    rcases pr1 with ⟨ns1, in1⟩
    rw [hd1] at h
    have hL1 : in1.length < in0.length := read_digits_ok_length _ _ _ _ hd1
    simp only at h
    cases h2s : read_number_frac ns1 in1 with
    | error e => rw [h2s] at h; simp at h
    | ok pr2 =>
      rcases pr2 with ⟨ns2, in2⟩
      rw [h2s] at h
      have hL2 : in2.length ≤ in1.length := by
        unfold read_number_frac at h2s
        split at h2s
        · have := read_digits_ok_length _ _ _ _ h2s
          simp at this ⊢
          omega
        · rcases h2s with ⟨-, rfl⟩
          exact le_refl _
      simp only at h
      cases h3s : read_number_exp ns2 in2 with
      | error e => rw [h3s] at h; simp at h
      | ok pr3 =>
        rcases pr3 with ⟨ns3, in3⟩
        rw [h3s] at h
        have hL3 : in3.length ≤ in2.length := by
          unfold read_number_exp at h3s
          split at h3s
          · split at h3s
            · split at h3s
              · split at h3s
                · have := read_digits_ok_length _ _ _ _ h3s
                  simp at this ⊢
                  omega
                · have := read_digits_ok_length _ _ _ _ h3s
                  simp at this ⊢
                  omega
              · have := read_digits_ok_length _ _ _ _ h3s
                simp at this
            · rcases h3s with ⟨-, rfl⟩
              exact le_refl _
          · rcases h3s with ⟨-, rfl⟩
            exact le_refl _
        simp only at h
        cases hp : parseF64 ns3 with
        | none => rw [hp] at h; simp at h
        | some q =>
          rw [hp] at h
          simp at h
          rcases h with ⟨hq2, rfl⟩
          exact ⟨by omega, by simp [← hq2]⟩

lemma read_null_ok_length (input : List Char) (tok : Option Token) (rest : List Char) :
    read_null input = .ok (tok, rest) → rest.length < input.length := by
  intro h
  simp only [read_null] at h
  split at h
  · rename_i r heq
    rcases h with ⟨-, rfl⟩
    have := expect_chars_ok_length _ _ _ heq
    simp [List.length_drop] at this
    omega
  · simp at h

lemma read_boolean_ok_length (input : List Char) (tok : Option Token) (rest : List Char) :
    read_boolean input = .ok (tok, rest) → rest.length < input.length := by
  intro h
  simp only [read_boolean] at h
  split at h
  · split at h
    · rename_i r heq
      rcases h with ⟨-, rfl⟩
      have := expect_chars_ok_length _ _ _ heq
      simp at this ⊢
      omega
    · simp at h
  · split at h
    · rename_i r heq
      rcases h with ⟨-, rfl⟩
      have := expect_chars_ok_length _ _ _ heq
      simp at this ⊢
      omega
    · simp at h
  · simp at h

lemma next_token_ok_facts (l : List Char) (tok : Option Token) (rest : List Char)
    (h : next_token l = .ok (tok, rest)) :
    rest.length ≤ l.length ∧ (tok.isSome → rest.length < l.length) ∧
      (tok = none → rest = []) := by
  simp only [next_token] at h
  split at h
  · rcases h with ⟨rfl, rfl⟩
    simp
  · rename_i c r hsw
    have hswle : r.length + 1 ≤ l.length := by
      have := skip_whitespace_length_le l
      rw [hsw] at this
      simpa using this
    by_cases h1 : c = '\x7b'
    · simp only [h1, if_true] at h
      rcases h with ⟨rfl, rfl⟩
      refine ⟨by omega, by intro; omega, by simp⟩
    · simp only [h1, if_false] at h
      by_cases h2 : c = '\x7d'
      · simp only [h2, if_true] at h
        rcases h with ⟨rfl, rfl⟩
        refine ⟨by omega, by intro; omega, by simp⟩
      · simp only [h2, if_false] at h
        by_cases h3 : c = '['
        · simp only [h3, if_true] at h
          rcases h with ⟨rfl, rfl⟩
          refine ⟨by omega, by intro; omega, by simp⟩
        · simp only [h3, if_false] at h
          by_cases h4 : c = ']'
          · simp only [h4, if_true] at h
            rcases h with ⟨rfl, rfl⟩
            refine ⟨by omega, by intro; omega, by simp⟩
          · simp only [h4, if_false] at h
            by_cases h5 : c = ':'
            · simp only [h5, if_true] at h
              rcases h with ⟨rfl, rfl⟩
              refine ⟨by omega, by intro; omega, by simp⟩
            · simp only [h5, if_false] at h
              by_cases h6 : c = ','
              · simp only [h6, if_true] at h
                rcases h with ⟨rfl, rfl⟩
                refine ⟨by omega, by intro; omega, by simp⟩
              · simp only [h6, if_false] at h
                by_cases h7 : c = '"'
                · simp only [h7, if_true] at h
                  split at h
                  · rename_i t r2 heq
                    rcases h with ⟨rfl, rfl⟩
                    have := read_string_ok_length r.length r (le_refl _) _ _ _ heq
                    refine ⟨by omega, by intro; omega, by simp⟩
                  · simp at h
                · simp only [h7, if_false] at h
                  by_cases h8 : c = 'n'
                  · simp only [h8, if_true] at h
                    have := read_null_ok_length _ _ _ h
                    have h9 : rest.length < r.length + 1 := by simpa using this
                    have h10 : tok = none → rest = [] := by
                      intro hn
                      subst hn
                      simp only [read_null] at h
                      split at h
                      · simp at h
                      · simp at h
                    exact ⟨by omega, fun _ => by omega, h10⟩
                  · simp only [h8, if_false] at h
                    by_cases h9 : c = 't' ∨ c = 'f'
                    · simp only [h9, if_true] at h
                      have := read_boolean_ok_length _ _ _ h
                      have h10 : rest.length < r.length + 1 := by simpa using this
                      have h11 : tok = none → rest = [] := by
                        intro hn
                        subst hn
                        simp only [read_boolean] at h
                        split at h
                        · split at h
                          · simp at h
                          · simp at h
                        · split at h
                          · simp at h
                          · simp at h
                        · simp at h
                      exact ⟨by omega, fun _ => by omega, h11⟩
                    · simp only [h9, if_false] at h
                      by_cases h10 : c.isDigit ∨ c = '-'
                      · simp only [h10, if_true] at h
                        obtain ⟨hlt, hsome⟩ := read_number_ok_facts _ _ _ h
                        have h11 : rest.length < r.length + 1 := by simpa using hlt
                        have h12 : tok = none → rest = [] := by
                          intro hn
                          subst hn
                          simp at hsome
                        exact ⟨by omega, fun _ => by omega, h12⟩
                      · simp [h10] at h

lemma next_token_ok_le (l : List Char) (tok : Option Token) (rest : List Char)
    (h : next_token l = .ok (tok, rest)) : rest.length ≤ l.length :=
  (next_token_ok_facts l tok rest h).1

lemma advance_token_ok_size (p p' : Parser) (h : advance_token p = .ok p') :
    p'.size ≤ p.input.length := by
  simp only [advance_token] at h
  split at h
  · rename_i tok rest heq
    rcases h with ⟨rfl⟩
    obtain ⟨hle, hlt, -⟩ := next_token_ok_facts _ _ _ heq
    simp only [Parser.size]
    cases tok with
    | none => simpa using hle
    | some t => simpa using hlt (by simp)
  · simp at h

lemma advance_token_ok_le (p p' : Parser) (h : advance_token p = .ok p') :
    p'.size ≤ p.size := by
  have := advance_token_ok_size p p' h
  have h2 : p.input.length ≤ p.size := by
    simp only [Parser.size]
    omega
  omega

lemma advance_token_ok_lt (p p' : Parser) (hs : p.current_token.isSome)
    (h : advance_token p = .ok p') : p'.size < p.size := by
  have := advance_token_ok_size p p' h
  have h2 : p.size = p.input.length + 1 := by
    simp only [Parser.size, hs]
    simp
  omega

/-- A successful parse never grows the remaining-input measure. -/
lemma parsers_size_le : ∀ n : Nat,
    (∀ p v p', parse_value n p = some (.ok (v, p')) → p'.size ≤ p.size) ∧
    (∀ p v p', parse_object n p = some (.ok (v, p')) → p'.size ≤ p.size) ∧
    (∀ p obj v p', parse_object_loop n p obj = some (.ok (v, p')) → p'.size ≤ p.size) ∧
    (∀ p obj v p', parse_object_sep n p obj = some (.ok (v, p')) → p'.size ≤ p.size) ∧
    (∀ p v p', parse_array n p = some (.ok (v, p')) → p'.size ≤ p.size) ∧
    (∀ p arr v p', parse_array_loop n p arr = some (.ok (v, p')) → p'.size ≤ p.size) ∧
    (∀ p arr v p', parse_array_sep n p arr = some (.ok (v, p')) → p'.size ≤ p.size) := by
  intro n
  induction n with
  | zero =>
    refine ⟨fun p v p' h => ?_, fun p v p' h => ?_, fun p obj v p' h => ?_,
      fun p obj v p' h => ?_, fun p v p' h => ?_, fun p arr v p' h => ?_,
      fun p arr v p' h => ?_⟩
    · simp [parse_value] at h
    · simp [parse_object] at h
    · simp [parse_object_loop] at h
    · simp [parse_object_sep] at h
    · simp [parse_array] at h
    · simp [parse_array_loop] at h
    · simp [parse_array_sep] at h
  | succ n ih =>
    obtain ⟨ihv, iho, ihol, ihos, iha, ihal, ihas⟩ := ih
    refine ⟨fun p v p' h => ?_, fun p v p' h => ?_, fun p obj v p' h => ?_,
      fun p obj v p' h => ?_, fun p v p' h => ?_, fun p arr v p' h => ?_,
      fun p arr v p' h => ?_⟩
    · -- parse_value
      simp only [parse_value] at h
      split at h
      · split at h
        · rename_i p1 heq
          simp at h
          obtain ⟨-, h2⟩ := h
          subst h2
          exact advance_token_ok_le _ _ heq
        · simp at h
      · split at h
        · rename_i p1 heq
          simp at h
          obtain ⟨-, h2⟩ := h
          subst h2
          exact advance_token_ok_le _ _ heq
        · simp at h
      · split at h
        · rename_i p1 heq
          simp at h
          obtain ⟨-, h2⟩ := h
          subst h2
          exact advance_token_ok_le _ _ heq
        · simp at h
      · split at h
        · rename_i p1 heq
          simp at h
          obtain ⟨-, h2⟩ := h
          subst h2
          exact advance_token_ok_le _ _ heq
        · simp at h
      · exact iho _ _ _ h
      · exact iha _ _ _ h
      · simp at h
      · simp at h
    · -- parse_object
      simp only [parse_object] at h
      split at h
      · simp at h
      · rename_i p1 heq
        have hle1 : p1.size ≤ p.size := advance_token_ok_le _ _ heq
        split at h
        · split at h
          · rename_i p2 heq2
            simp at h
            obtain ⟨-, h2⟩ := h
            subst h2
            exact le_trans (advance_token_ok_le _ _ heq2) hle1
          · simp at h
        · exact le_trans (ihol _ _ _ _ h) hle1
    · -- parse_object_loop
      simp only [parse_object_loop] at h
      split at h
      · rename_i key
        split at h
        · simp at h
        · rename_i p1 heq
          have hle1 : p1.size ≤ p.size := advance_token_ok_le _ _ heq
          split at h
          · split at h
            · simp at h
            · rename_i p2 heq2
              have hle2 : p2.size ≤ p1.size := advance_token_ok_le _ _ heq2
              split at h
              · simp at h
              · simp at h
              · rename_i v2 p3 heq3
                have hle3 : p3.size ≤ p2.size := ihv _ _ _ heq3
                have hle4 : p'.size ≤ p3.size := ihos _ _ _ _ h
                omega
          · simp at h
          · simp at h
      · simp at h
      · simp at h
    · -- parse_object_sep
      simp only [parse_object_sep] at h
      split at h
      · split at h
        · simp at h
        · rename_i p1 heq
          have hle1 : p1.size ≤ p.size := advance_token_ok_le _ _ heq
          split at h
          · simp at h
          · exact le_trans (ihol _ _ _ _ h) hle1
      · split at h
        · rename_i p1 heq
          simp at h
          obtain ⟨-, h2⟩ := h
          subst h2
          exact advance_token_ok_le _ _ heq
        · simp at h
      · simp at h
      · simp at h
    · -- parse_array
      simp only [parse_array] at h
      split at h
      · simp at h
      · rename_i p1 heq
        have hle1 : p1.size ≤ p.size := advance_token_ok_le _ _ heq
        split at h
        · split at h
          · rename_i p2 heq2
            simp at h
            obtain ⟨-, h2⟩ := h
            subst h2
            exact le_trans (advance_token_ok_le _ _ heq2) hle1
          · simp at h
        · exact le_trans (ihal _ _ _ _ h) hle1
    · -- parse_array_loop
      simp only [parse_array_loop] at h
      split at h
      · simp at h
      · simp at h
      · rename_i v1 p1 heq
        have hle1 : p1.size ≤ p.size := ihv _ _ _ heq
        have hle2 : p'.size ≤ p1.size := ihas _ _ _ _ h
        omega
    · -- parse_array_sep
      simp only [parse_array_sep] at h
      split at h
      · split at h
        · simp at h
        · rename_i p1 heq
          have hle1 : p1.size ≤ p.size := advance_token_ok_le _ _ heq
          split at h
          · simp at h
          · exact le_trans (ihal _ _ _ _ h) hle1
      · split at h
        · rename_i p1 heq
          simp at h
          obtain ⟨-, h2⟩ := h
          subst h2
          exact advance_token_ok_le _ _ heq
        · simp at h
      · simp at h
      · simp at h

/-- The fuel supplied by `Parser.parse` is sufficient: with fuel at least
three times the measure (plus slack), no parser function runs out. -/
lemma parsers_fuel_sufficient : ∀ n : Nat,
    (∀ p, 3 * p.size + 2 ≤ n → parse_value n p ≠ none) ∧
    (∀ p, p.current_token.isSome → 3 * p.size + 1 ≤ n → parse_object n p ≠ none) ∧
    (∀ p obj, 3 * p.size + 1 ≤ n → parse_object_loop n p obj ≠ none) ∧
    (∀ p obj, 3 * p.size + 1 ≤ n → parse_object_sep n p obj ≠ none) ∧
    (∀ p, p.current_token.isSome → 3 * p.size + 1 ≤ n → parse_array n p ≠ none) ∧
    (∀ p arr, 3 * p.size + 3 ≤ n → parse_array_loop n p arr ≠ none) ∧
    (∀ p arr, 3 * p.size + 1 ≤ n → parse_array_sep n p arr ≠ none) := by
  intro n
  induction n with
  | zero =>
    refine ⟨fun p hb => ?_, fun p hs hb => ?_, fun p obj hb => ?_, fun p obj hb => ?_,
      fun p hs hb => ?_, fun p arr hb => ?_, fun p arr hb => ?_⟩ <;> omega
  | succ n ih =>
    obtain ⟨ihv, iho, ihol, ihos, iha, ihal, ihas⟩ := ih
    refine ⟨fun p hb => ?_, fun p hs hb => ?_, fun p obj hb => ?_, fun p obj hb => ?_,
      fun p hs hb => ?_, fun p arr hb => ?_, fun p arr hb => ?_⟩
    · -- parse_value
      intro h
      simp only [parse_value] at h
      split at h
      · split at h <;> simp at h
      · split at h <;> simp at h
      · split at h <;> simp at h
      · split at h <;> simp at h
      · rename_i hcur
        refine iho p (by simp [hcur]) ?_ h
        omega
      · rename_i hcur
        refine iha p (by simp [hcur]) ?_ h
        omega
      · simp at h
      · simp at h
    · -- parse_object
      intro h
      simp only [parse_object] at h
      split at h
      · simp at h
      · rename_i p1 heq
        have hlt1 : p1.size < p.size := advance_token_ok_lt _ _ hs heq
        split at h
        · split at h <;> simp at h
        · refine ihol p1 [] ?_ h
          omega
    · -- parse_object_loop
      intro h
      simp only [parse_object_loop] at h
      split at h
      · rename_i key hcur
        split at h
        · simp at h
        · rename_i p1 heq
          have hlt1 : p1.size < p.size := by
            refine advance_token_ok_lt _ _ ?_ heq
            simp [hcur]
          split at h
          · rename_i hcur1
            split at h
            · simp at h
            · rename_i p2 heq2
              have hlt2 : p2.size < p1.size := by
                refine advance_token_ok_lt _ _ ?_ heq2
                simp [hcur1]
              split at h
              · rename_i heq3
                refine ihv p2 ?_ heq3
                omega
              · simp at h
              · rename_i v2 p3 heq3
                have hle3 : p3.size ≤ p2.size := (parsers_size_le n).1 _ _ _ heq3
                refine ihos p3 _ ?_ h
                omega
          · simp at h
          · simp at h
      · simp at h
      · simp at h
    · -- parse_object_sep
      intro h
      simp only [parse_object_sep] at h
      split at h
      · rename_i hcur
        split at h
        · simp at h
        · rename_i p1 heq
          have hlt1 : p1.size < p.size := by
            refine advance_token_ok_lt _ _ ?_ heq
            simp [hcur]
          split at h
          · simp at h
          · refine ihol p1 obj ?_ h
            omega
      · split at h <;> simp at h
      · simp at h
      · simp at h
    · -- parse_array
      intro h
      simp only [parse_array] at h
      split at h
      · simp at h
      · rename_i p1 heq
        have hlt1 : p1.size < p.size := advance_token_ok_lt _ _ hs heq
        split at h
        · split at h <;> simp at h
        · refine ihal p1 [] ?_ h
          omega
    · -- parse_array_loop
      intro h
      simp only [parse_array_loop] at h
      split at h
      · rename_i heq
        refine ihv p ?_ heq
        omega
      · simp at h
      · rename_i v1 p1 heq
        have hle1 : p1.size ≤ p.size := (parsers_size_le n).1 _ _ _ heq
        refine ihas p1 _ ?_ h
        omega
    · -- parse_array_sep
      intro h
      simp only [parse_array_sep] at h
      split at h
      · rename_i hcur
        split at h
        · simp at h
        · rename_i p1 heq
          have hlt1 : p1.size < p.size := by
            refine advance_token_ok_lt _ _ ?_ heq
            simp [hcur]
          split at h
          · simp at h
          · refine ihal p1 arr ?_ h
            omega
      · split at h <;> simp at h
      · simp at h
      · simp at h

/-! Whitespace facts: the lexer skips any whitespace prefix before each
token, so parsing is invariant to whitespace inserted before a token. -/

lemma skip_whitespace_append (ws l : List Char) (h : ws.all isRustWhitespace = true) :
    skip_whitespace (ws ++ l) = skip_whitespace l := by
  induction ws with
  | nil => simp
  | cons c ws ih =>
    simp only [List.all_cons, Bool.and_eq_true] at h
    simp only [List.cons_append, skip_whitespace, h.1, if_true]
    exact ih h.2

lemma skip_whitespace_all (ws : List Char) (h : ws.all isRustWhitespace = true) :
    skip_whitespace ws = [] := by
  have := skip_whitespace_append ws [] h
  simpa using this

lemma next_token_ws (ws l : List Char) (h : ws.all isRustWhitespace = true) :
    next_token (ws ++ l) = next_token l := by
  simp only [next_token, skip_whitespace_append ws l h]

lemma advance_token_ws (cur : Option Token) (ws input : List Char)
    (h : ws.all isRustWhitespace = true) :
    advance_token ⟨cur, ws ++ input⟩ = advance_token ⟨cur, input⟩ := by
  simp only [advance_token, next_token_ws ws input h]

/-- Whitespace prepended to the un-lexed remainder never changes any parser
function: every token fetch begins with `skip_whitespace`. -/
lemma parsers_ws (ws : List Char) (hws : ws.all isRustWhitespace = true) : ∀ n : Nat,
    (∀ cur input, parse_value n ⟨cur, ws ++ input⟩ = parse_value n ⟨cur, input⟩) ∧
    (∀ cur input, parse_object n ⟨cur, ws ++ input⟩ = parse_object n ⟨cur, input⟩) ∧
    (∀ cur input obj, parse_object_loop n ⟨cur, ws ++ input⟩ obj =
      parse_object_loop n ⟨cur, input⟩ obj) ∧
    (∀ cur input obj, parse_object_sep n ⟨cur, ws ++ input⟩ obj =
      parse_object_sep n ⟨cur, input⟩ obj) ∧
    (∀ cur input, parse_array n ⟨cur, ws ++ input⟩ = parse_array n ⟨cur, input⟩) ∧
    (∀ cur input arr, parse_array_loop n ⟨cur, ws ++ input⟩ arr =
      parse_array_loop n ⟨cur, input⟩ arr) ∧
    (∀ cur input arr, parse_array_sep n ⟨cur, ws ++ input⟩ arr =
      parse_array_sep n ⟨cur, input⟩ arr) := by
  intro n
  induction n with
  | zero =>
    refine ⟨?_, ?_, ?_, ?_, ?_, ?_, ?_⟩ <;> intros <;>
      simp [parse_value, parse_object, parse_object_loop, parse_object_sep,
        parse_array, parse_array_loop, parse_array_sep]
  | succ n ih =>
    obtain ⟨ihv, iho, ihol, ihos, iha, ihal, ihas⟩ := ih
    refine ⟨?_, ?_, ?_, ?_, ?_, ?_, ?_⟩
    · intro cur input
      simp only [parse_value, advance_token_ws cur ws input hws]
      cases cur with
      | none => rfl
      | some t =>
        cases t <;> simp only [iho, iha]
    · intro cur input
      simp only [parse_object, advance_token_ws cur ws input hws]
    · intro cur input obj
      simp only [parse_object_loop, advance_token_ws cur ws input hws]
    · intro cur input obj
      simp only [parse_object_sep, advance_token_ws cur ws input hws]
    · intro cur input
      simp only [parse_array, advance_token_ws cur ws input hws]
    · intro cur input arr
      simp only [parse_array_loop, ihv]
    · intro cur input arr
      simp only [parse_array_sep, advance_token_ws cur ws input hws]

lemma parse_json_ws (ws s : List Char) (h : ws.all isRustWhitespace = true) :
    parse_json (ws ++ s) = parse_json s := by
  simp only [parse_json, next_token_ws ws s h]

/-- Claim C8: parsing is invariant to inter-token whitespace. Formalised
as: (1) whitespace prepended to the whole input never changes the result,
and (2) from any parser state — in particular every state reached at a
token boundary — whitespace prepended to the un-lexed remainder never
changes the parse, since every token fetch begins by skipping whitespace. -/
theorem claim_C8 :
    (∀ ws s : List Char, ws.all isRustWhitespace = true →
      parse_json (ws ++ s) = parse_json s) ∧
    (∀ (n : Nat) (cur : Option Token) (ws input : List Char),
      ws.all isRustWhitespace = true →
      parse_value n ⟨cur, ws ++ input⟩ = parse_value n ⟨cur, input⟩) :=
  ⟨parse_json_ws, fun n cur ws input h => (parsers_ws ws h n).1 cur input⟩

/-- Witness for C8 at a concrete whitespace insertion. -/
theorem claim_C8_witness :
    parse_json (" \t".data ++ "[1]".data) = parse_json "[1]".data :=
  claim_C8.1 " \t".data "[1]".data (by decide)

/-- Claim C9: the empty input, and every whitespace-only input, parses to
the `UnexpectedEof` error: the primed lookahead is end-of-input and
`parse_value` maps the absent token to `UnexpectedEof`. -/
theorem claim_C9 :
    parse_json [] = .error .UnexpectedEof ∧
    (∀ ws : List Char, ws.all isRustWhitespace = true →
      parse_json ws = .error .UnexpectedEof) := by
  constructor
  · rfl
  · intro ws h
    have h2 : parse_json (ws ++ []) = parse_json [] := parse_json_ws ws [] h
    simpa using h2

/-- Witness for C9 on a concrete whitespace-only input. -/
theorem claim_C9_witness : parse_json "  \t\n ".data = .error .UnexpectedEof :=
  claim_C9.2 "  \t\n ".data (by decide)

/-- Claim C1 fails as stated: for the input `null extra` the trailing text
`extra` is not lexable (`e` begins no token), so the error is the lexical
`UnexpectedToken "e"` raised while priming the lookahead after `null`, not
the parser's "Expected end of input". -/
theorem claim_C1_counterexample :
    parse_json "null extra".data = .error (.UnexpectedToken "e") ∧
    (Except.error (.UnexpectedToken "e") : Except JsonError JsonValue) ≠
      .error (.UnexpectedToken "Expected end of input") := by
  refine ⟨rfl, ?_⟩
  intro h
  injection h with h1
  injection h1 with h2
  simp at h2

/-- Claim C1, amended: after `parse_value` completes with a remaining
lookahead token, `parse` returns the unexpected-token error "Expected end
of input"; the input `null true` (whose trailing content lexes to a token)
fails with exactly that error. `null extra` instead fails while lexing
`extra`. -/
theorem claim_C1_amended :
    (∀ (s : List Char) (tok : Option Token) (rest : List Char)
        (v : JsonValue) (p' : Parser),
      next_token s = .ok (tok, rest) →
      parse_value (3 * (Parser.mk tok rest).size + 2) (Parser.mk tok rest) =
        some (.ok (v, p')) →
      p'.current_token.isSome = true →
      parse_json s = .error (.UnexpectedToken "Expected end of input")) ∧
    parse_json "null true".data = .error (.UnexpectedToken "Expected end of input") := by
  constructor
  · intro s tok rest v p' hnt hpv hsome
    simp only [parse_json, hnt, Parser.parse, hpv, hsome, if_true]
  · rfl

/-- Witness for the general part of C1 at the input `null true`. -/
theorem claim_C1_witness :
    parse_json "null true".data = .error (.UnexpectedToken "Expected end of input") :=
  claim_C1_amended.1 "null true".data (some .Null) " true".data
    .Null ⟨some (.Boolean true), []⟩ rfl rfl rfl

/-- Claim C7: trailing commas are rejected. In any parser state where the
separator check sees a comma whose following token is the closing brace or
bracket, the loop raises the trailing-comma unexpected-token error; the
two concrete inputs of the claim fail with exactly those errors. -/
theorem claim_C7 :
    (∀ (n : Nat) (p p1 : Parser) (obj : List (String × JsonValue)),
      p.current_token = some .Comma →
      advance_token p = .ok p1 →
      p1.current_token = some .RightBrace →
      parse_object_sep (n + 1) p obj =
        some (.error (.UnexpectedToken "Trailing comma in object"))) ∧
    (∀ (n : Nat) (p p1 : Parser) (arr : List JsonValue),
      p.current_token = some .Comma →
      advance_token p = .ok p1 →
      p1.current_token = some .RightBracket →
      parse_array_sep (n + 1) p arr =
        some (.error (.UnexpectedToken "Trailing comma in array"))) ∧
    parse_json "[1, 2, 3,]".data = .error (.UnexpectedToken "Trailing comma in array") ∧
    parse_json "\x7b\x22a\x22:1,\x7d".data = .error (.UnexpectedToken "Trailing comma in object") := by
  refine ⟨?_, ?_, rfl, rfl⟩
  · intro n p p1 obj hcur hadv hcur1
    simp only [parse_object_sep, hcur, hadv, hcur1]
  · intro n p p1 arr hcur hadv hcur1
    simp only [parse_array_sep, hcur, hadv, hcur1]

/-- Witness for the two general parts of C7 at concrete parser states. -/
theorem claim_C7_witness :
    parse_object_sep 1 ⟨some .Comma, "\x7d".data⟩ [] =
      some (.error (.UnexpectedToken "Trailing comma in object")) ∧
    parse_array_sep 1 ⟨some .Comma, "]".data⟩ [] =
      some (.error (.UnexpectedToken "Trailing comma in array")) :=
  ⟨claim_C7.1 0 ⟨some .Comma, "\x7d".data⟩ ⟨some .RightBrace, []⟩ [] rfl rfl rfl,
   claim_C7.2.1 0 ⟨some .Comma, "]".data⟩ ⟨some .RightBracket, []⟩ [] rfl rfl rfl⟩

/-- String-body texts whose scan by `read_string` runs off the end of the
input without hitting an unescaped closing quote or a malformed escape:
plain characters, well-formed simple escapes, well-formed `\u` escapes,
or a bare backslash at the very end of input. -/
inductive NoClose : List Char → Prop where
  | nil : NoClose []
  | plain (c : Char) (rest : List Char) :
      c ≠ '"' → c ≠ '\\' → NoClose rest → NoClose (c :: rest)
  | escEnd : NoClose ['\\']
  | esc (e : Char) (rest : List Char) :
      (e = '"' ∨ e = '\\' ∨ e = '/' ∨ e = 'b' ∨ e = 'f' ∨ e = 'n' ∨ e = 'r' ∨ e = 't') →
      NoClose rest → NoClose ('\\' :: e :: rest)
  | escU (h1 h2 h3 h4 : Char) (rest : List Char) (cp : Nat) :
      fromStrRadix16 [h1, h2, h3, h4] = some cp → cp.isValidChar →
      NoClose rest → NoClose ('\\' :: 'u' :: h1 :: h2 :: h3 :: h4 :: rest)

lemma read_string_noclose (content : List Char) (h : NoClose content) :
    ∀ acc : String, read_string acc content = .error .UnexpectedEof := by
  induction h with
  | nil => intro acc; rfl
  | plain c rest hq hb _ ih =>
    intro acc
    rw [read_string.eq_def]
    simp only [hq, if_false, hb]
    exact ih _
  | escEnd => intro acc; rfl
  | esc e rest he _ ih =>
    intro acc
    rcases he with rfl | rfl | rfl | rfl | rfl | rfl | rfl | rfl <;>
      (rw [read_string.eq_def]; exact ih _)
  | escU h1 h2 h3 h4 rest cp hfr hvalid _ ih =>
    intro acc
    rw [read_string.eq_def]
    simp only [hfr]
    rw [dif_pos hvalid]
    exact ih _

/-- The `"` dispatch branch of `next_token`, exposed as an equation that
holds for any remaining input. -/
lemma next_token_quote (content : List Char) :
    next_token ('"' :: content) =
      match read_string "" content with
      | .ok (t, r) => .ok (some t, r)
      | .error e => .error e := rfl

/-- Claim C6 fails as stated: the input consisting of `"` `\` `q` ends
before any unescaped closing quote, yet fails with
`InvalidEscapeSequence "q"` — the malformed escape is reported before the
end of input is reached — not with `UnexpectedEof`. -/
theorem claim_C6_counterexample :
    parse_json ['"', '\\', 'q'] = .error (.InvalidEscapeSequence "q") ∧
    (Except.error (.InvalidEscapeSequence "q") : Except JsonError JsonValue) ≠
      .error .UnexpectedEof := by
  refine ⟨rfl, ?_⟩
  intro h
  injection h with h1
  cases h1

/-- Claim C6, amended: `{` alone fails with `UnexpectedEof`, and every
string token missing its closing quote fails with `UnexpectedEof`
provided the scan does not first hit a malformed escape (an invalid
escape character or an invalid `\u` sequence is reported instead). -/
theorem claim_C6_amended :
    parse_json ['\x7b'] = .error .UnexpectedEof ∧
    (∀ content : List Char, NoClose content →
      parse_json ('"' :: content) = .error .UnexpectedEof) := by
  constructor
  · rfl
  · intro content h
    simp only [parse_json, next_token_quote, read_string_noclose content h ""]

/-- Witness for C6 on a concrete unterminated string containing a plain
character and a well-formed escape. -/
theorem claim_C6_witness :
    parse_json ('"' :: "a\\n".data) = .error .UnexpectedEof :=
  claim_C6_amended.2 "a\\n".data
    (NoClose.plain 'a' _ (by decide) (by decide)
      (NoClose.esc 'n' [] (by decide) NoClose.nil))

/-- Claim C5: the error cases behave as claimed for incomplete digits,
non-hex digits and invalid scalar values — but the code accepts a `\u`
escape whose four characters are `+` followed by three hex digits, because
`u32::from_str_radix` accepts an optional leading `+`: the document
`"\u+061"` parses successfully to the string `a` instead of failing with
`InvalidUnicodeSequence "+061"`. -/
theorem claim_C5_eval :
    parse_json "\x22\\u+061\x22".data = .ok (.String "a") ∧
    parse_json "\x22\\uD800\x22".data = .error (.InvalidUnicodeSequence "D800") ∧
    parse_json "\x22\\u12".data = .error (.InvalidUnicodeSequence "12") ∧
    parse_json "\x22\\u00GG\x22".data = .error (.InvalidUnicodeSequence "00GG") :=
  ⟨rfl, rfl, rfl, rfl⟩

/-! String-body grammar for claim C4: a string body is a sequence of
items — plain characters, simple escapes, or `\u` escapes — and
`read_string` decodes each item to exactly the corresponding character. -/

/-- One item of a JSON string body. -/
inductive StrItem : Type where
  | lit (c : Char)
  | esc (e : Char)
  | uni (a b c d : Char)

/-- Source text of one item. -/
def itemText : StrItem → List Char
  | .lit c => [c]
  | .esc e => ['\\', e]
  | .uni a b c d => ['\\', 'u', a, b, c, d]

/-- Source text of an item sequence. -/
def itemsText : List StrItem → List Char
  | [] => []
  | i :: is => itemText i ++ itemsText is

/-- The single character a simple escape denotes (`src/lexer.rs:94-101`). -/
def escChar (e : Char) : Char :=
  if e = 'b' then '\x08'
  else if e = 'f' then '\x0C'
  else if e = 'n' then '\n'
  else if e = 'r' then '\r'
  else if e = 't' then '\t'
  else e

/-- Well-formedness of one item: a plain character is neither a quote nor
a backslash; a simple escape character is one of the eight recognised
ones; a `\u` escape's four characters are accepted by `from_str_radix`
and denote a valid scalar value. -/
def itemOk : StrItem → Prop
  | .lit c => c ≠ '"' ∧ c ≠ '\\'
  | .esc e => e = '"' ∨ e = '\\' ∨ e = '/' ∨ e = 'b' ∨ e = 'f' ∨ e = 'n' ∨ e = 'r' ∨ e = 't'
  | .uni a b c d => ∃ cp, fromStrRadix16 [a, b, c, d] = some cp ∧ cp.isValidChar

/-- The character one item decodes to. -/
def itemChar : StrItem → Char
  | .lit c => c
  | .esc e => escChar e
  | .uni a b c d => Char.ofNat ((fromStrRadix16 [a, b, c, d]).getD 0)

lemma string_push_data (s : String) (c : Char) : (s.push c).data = s.data ++ [c] := by
  cases s
  rfl

lemma string_mk_data (s : String) : String.mk s.data = s := by
  cases s
  rfl

lemma read_string_items (its : List StrItem) (h : ∀ i ∈ its, itemOk i) :
    ∀ (acc : String) (r : List Char),
      read_string acc (itemsText its ++ '"' :: r) =
        .ok (.String (String.mk (acc.data ++ its.map itemChar)), r) := by
  induction its with
  | nil =>
    intro acc r
    rw [read_string.eq_def]
    simp [itemsText, string_mk_data]
  | cons i is ih =>
    have hi := h i (by simp)
    have his : ∀ j ∈ is, itemOk j := fun j hj => h j (by simp [hj])
    intro acc r
    cases i with
    | lit c =>
      obtain ⟨hq, hb⟩ := hi
      show read_string acc (c :: (itemsText is ++ '"' :: r)) = _
      rw [read_string.eq_def]
      simp only [hq, if_false, hb]
      exact (ih his _ r).trans (by simp [string_push_data, itemChar])
    | esc e =>
      show read_string acc ('\\' :: e :: (itemsText is ++ '"' :: r)) = _
      rcases hi with rfl | rfl | rfl | rfl | rfl | rfl | rfl | rfl <;>
        (rw [read_string.eq_def]
         exact (ih his _ r).trans (by simp [string_push_data, itemChar, escChar]))
    | uni a b c d =>
      obtain ⟨cp, hfr, hvalid⟩ := hi
      show read_string acc ('\\' :: 'u' :: a :: b :: c :: d :: (itemsText is ++ '"' :: r)) = _
      rw [read_string.eq_def]
      simp only [hfr]
      rw [dif_pos hvalid]
      exact (ih his _ r).trans
        (by simp [string_push_data, itemChar, hfr, Char.ofNat, hvalid])

instance decidableItemOk (i : StrItem) : Decidable (itemOk i) :=
  match i with
  | .lit c => inferInstanceAs (Decidable (_ ∧ _))
  | .esc e => inferInstanceAs (Decidable (_ ∨ _))
  | .uni a b c d =>
    match h : fromStrRadix16 [a, b, c, d] with
    | some cp =>
      decidable_of_iff cp.isValidChar
        (by
          constructor
          · intro hv
            exact ⟨cp, h, hv⟩
          · rintro ⟨cp2, hcp2, hv2⟩
            rw [h] at hcp2
            cases hcp2
            exact hv2)
    | none =>
      isFalse (by
        rintro ⟨cp, hcp, -⟩
        rw [h] at hcp
        cases hcp)

/-- Claim C4: for every string token made of plain characters, the six
simple escapes (plus `\"` and `\\`), and well-formed `\u` escapes, the
decoded `String` value contains exactly the corresponding literal
characters; in particular `"hello\nworld"` decodes with a real newline
between `hello` and `world`. -/
theorem claim_C4 :
    (∀ its : List StrItem, (∀ i ∈ its, itemOk i) →
      parse_json ('"' :: (itemsText its ++ ['"'])) =
        .ok (.String (String.mk (its.map itemChar)))) ∧
    parse_json "\x22hello\\nworld\x22".data = .ok (.String "hello\nworld") := by
  constructor
  · intro its h
    have hrs := read_string_items its h "" []
    simp only [parse_json, next_token_quote, hrs]
    rfl
  · rfl

/-- Witness for the general part of C4 at the `hello\nworld` example. -/
theorem claim_C4_witness :
    parse_json "\x22hello\\nworld\x22".data = .ok (.String "hello\nworld") :=
  claim_C4.1
    [.lit 'h', .lit 'e', .lit 'l', .lit 'l', .lit 'o', .esc 'n',
     .lit 'w', .lit 'o', .lit 'r', .lit 'l', .lit 'd']
    (by decide)

/-! Machinery for claim C2: a two-binding object document with an
arbitrary plain key and literal values, run symbolically through the
parser. -/

lemma read_string_plain (key : List Char) (h : ∀ c ∈ key, c ≠ '"' ∧ c ≠ '\\')
    (r : List Char) :
    read_string "" (key ++ '"' :: r) = .ok (.String (String.mk key), r) := by
  have h2 : ∀ i ∈ key.map StrItem.lit, itemOk i := by
    intro i hi
    simp only [List.mem_map] at hi
    obtain ⟨c, hc, rfl⟩ := hi
    exact h c hc
  have htext : ∀ k : List Char, itemsText (k.map StrItem.lit) = k := by
    intro k
    induction k with
    | nil => rfl
    | cons c k ih => simp [itemsText, itemText, ih]
  have hchar : (key.map StrItem.lit).map itemChar = key := by
    rw [List.map_map]
    have hcomp : (itemChar ∘ StrItem.lit) = id := funext fun c => rfl
    rw [hcomp, List.map_id]
  have := read_string_items (key.map StrItem.lit) h2 "" r
  rw [htext key, hchar] at this
  simpa using this

lemma next_token_string (key : List Char) (h : ∀ c ∈ key, c ≠ '"' ∧ c ≠ '\\')
    (r : List Char) :
    next_token ('"' :: (key ++ '"' :: r)) = .ok (some (.String (String.mk key)), r) := by
  rw [next_token_quote, read_string_plain key h r]

lemma nt_nil : next_token [] = .ok (none, []) := rfl

lemma nt_lbrace (r : List Char) : next_token ('\x7b' :: r) = .ok (some .LeftBrace, r) := rfl

lemma nt_rbrace (r : List Char) : next_token ('\x7d' :: r) = .ok (some .RightBrace, r) := rfl

lemma nt_lbracket (r : List Char) : next_token ('[' :: r) = .ok (some .LeftBracket, r) := rfl

lemma nt_rbracket (r : List Char) : next_token (']' :: r) = .ok (some .RightBracket, r) := rfl

lemma nt_colon (r : List Char) : next_token (':' :: r) = .ok (some .Colon, r) := rfl

lemma nt_comma (r : List Char) : next_token (',' :: r) = .ok (some .Comma, r) := rfl

/-- The three JSON literals, used as object values in the C2 family. -/
inductive Lit : Type where
  | null
  | tt
  | ff

def litChars : Lit → List Char
  | .null => ['n', 'u', 'l', 'l']
  | .tt => ['t', 'r', 'u', 'e']
  | .ff => ['f', 'a', 'l', 's', 'e']

def litTok : Lit → Token
  | .null => .Null
  | .tt => .Boolean true
  | .ff => .Boolean false

def litValue : Lit → JsonValue
  | .null => .Null
  | .tt => .Boolean true
  | .ff => .Boolean false

lemma nt_lit (l : Lit) (r : List Char) :
    next_token (litChars l ++ r) = .ok (some (litTok l), r) := by
  cases l <;> rfl

lemma parse_value_lit (m : Nat) (l : Lit) (p p' : Parser)
    (hcur : p.current_token = some (litTok l)) (hadv : advance_token p = .ok p') :
    parse_value (m + 1) p = some (.ok (litValue l, p')) := by
  cases l <;> simp only [litTok] at hcur <;>
    simp only [parse_value, hcur, hadv, litValue]

lemma hmInsert_pair (K : String) (v1 v2 : JsonValue) :
    hmInsert (hmInsert [] K v1) K v2 = [(K, v2)] := by
  simp [hmInsert]

/-- The two-binding object document `\x7b"key":lit1,"key":lit2\x7d`. -/
def dupKeyDoc (key : List Char) (l1 l2 : Lit) : List Char :=
  '\x7b' :: '"' :: (key ++ '"' :: ':' :: (litChars l1 ++ ',' :: '"' :: (key ++ '"' :: ':' :: (litChars l2 ++ ['\x7d']))))

/-- Claim C2: an object source text binding the same key twice retains
only the value of the last occurrence — for every plain key and every
pair of literal values, the duplicate-key document parses to the object
holding only the second binding, and looking the key up yields the second
value: `hmInsert` overwrites the earlier binding. -/
theorem claim_C2 (key : List Char) (l1 l2 : Lit)
    (h : ∀ c ∈ key, c ≠ '"' ∧ c ≠ '\\') :
    parse_json (dupKeyDoc key l1 l2) =
      .ok (.Object [(String.mk key, litValue l2)]) ∧
    hmGet [(String.mk key, litValue l2)] (String.mk key) = some (litValue l2) := by
  refine ⟨?_, by simp [hmGet]⟩
  have s1 : next_token (dupKeyDoc key l1 l2) =
      .ok (some .LeftBrace, '"' :: (key ++ '"' :: ':' :: (litChars l1 ++ ',' :: '"' :: (key ++ '"' :: ':' :: (litChars l2 ++ ['\x7d']))))) :=
    nt_lbrace _
  have a1 : advance_token ⟨some .LeftBrace, '"' :: (key ++ '"' :: ':' :: (litChars l1 ++ ',' :: '"' :: (key ++ '"' :: ':' :: (litChars l2 ++ ['\x7d']))))⟩ =
      .ok ⟨some (.String (String.mk key)), ':' :: (litChars l1 ++ ',' :: '"' :: (key ++ '"' :: ':' :: (litChars l2 ++ ['\x7d'])))⟩ := by
    simp only [advance_token, next_token_string key h]
  have a2 : advance_token ⟨some (.String (String.mk key)), ':' :: (litChars l1 ++ ',' :: '"' :: (key ++ '"' :: ':' :: (litChars l2 ++ ['\x7d'])))⟩ =
      .ok ⟨some .Colon, (litChars l1 ++ ',' :: '"' :: (key ++ '"' :: ':' :: (litChars l2 ++ ['\x7d'])))⟩ := by
    simp only [advance_token, nt_colon]
  have a3 : advance_token ⟨some .Colon, (litChars l1 ++ ',' :: '"' :: (key ++ '"' :: ':' :: (litChars l2 ++ ['\x7d'])))⟩ =
      .ok ⟨some (litTok l1), ',' :: '"' :: (key ++ '"' :: ':' :: (litChars l2 ++ ['\x7d']))⟩ := by
    simp only [advance_token, nt_lit]
  have a4 : advance_token ⟨some (litTok l1), ',' :: '"' :: (key ++ '"' :: ':' :: (litChars l2 ++ ['\x7d']))⟩ =
      .ok ⟨some .Comma, '"' :: (key ++ '"' :: ':' :: (litChars l2 ++ ['\x7d']))⟩ := by
    simp only [advance_token, nt_comma]
  have a5 : advance_token ⟨some .Comma, '"' :: (key ++ '"' :: ':' :: (litChars l2 ++ ['\x7d']))⟩ =
      .ok ⟨some (.String (String.mk key)), ':' :: (litChars l2 ++ ['\x7d'])⟩ := by
    simp only [advance_token, next_token_string key h]
  have a6 : advance_token ⟨some (.String (String.mk key)), ':' :: (litChars l2 ++ ['\x7d'])⟩ =
      .ok ⟨some .Colon, (litChars l2 ++ ['\x7d'])⟩ := by
    simp only [advance_token, nt_colon]
  have a7 : advance_token ⟨some .Colon, (litChars l2 ++ ['\x7d'])⟩ =
      .ok ⟨some (litTok l2), ['\x7d']⟩ := by
    simp only [advance_token, nt_lit]
  have a8 : advance_token ⟨some (litTok l2), ['\x7d']⟩ =
      .ok ⟨some .RightBrace, []⟩ := by
    simp only [advance_token, nt_rbrace]
  have a9 : advance_token ⟨some .RightBrace, ([] : List Char)⟩ =
      .ok ⟨none, []⟩ := by
    simp only [advance_token, nt_nil]
  obtain ⟨g, hg⟩ : ∃ g, 3 * (Parser.mk (some .LeftBrace) ('"' :: (key ++ '"' :: ':' :: (litChars l1 ++ ',' :: '"' :: (key ++ '"' :: ':' :: (litChars l2 ++ ['\x7d'])))))).size + 2 = g + 6 := by
    refine ⟨3 * (Parser.mk (some .LeftBrace) ('"' :: (key ++ '"' :: ':' :: (litChars l1 ++ ',' :: '"' :: (key ++ '"' :: ':' :: (litChars l2 ++ ['\x7d'])))))).size - 4, ?_⟩
    simp only [Parser.size]
    simp
    omega
  have e3 : parse_object_loop (g + 4) ⟨some (.String (String.mk key)), ':' :: (litChars l1 ++ ',' :: '"' :: (key ++ '"' :: ':' :: (litChars l2 ++ ['\x7d'])))⟩ [] =
      parse_object_sep (g + 3) ⟨some .Comma, '"' :: (key ++ '"' :: ':' :: (litChars l2 ++ ['\x7d']))⟩
        (hmInsert [] (String.mk key) (litValue l1)) := by
    simp only [parse_object_loop, a2, a3,
      parse_value_lit (g + 2) l1 _ _ rfl a4]
  have e5 : parse_object_loop (g + 2) ⟨some (.String (String.mk key)), ':' :: (litChars l2 ++ ['\x7d'])⟩
      (hmInsert [] (String.mk key) (litValue l1)) =
      parse_object_sep (g + 1) ⟨some .RightBrace, []⟩
        (hmInsert (hmInsert [] (String.mk key) (litValue l1)) (String.mk key) (litValue l2)) := by
    simp only [parse_object_loop, a6, a7,
      parse_value_lit g l2 _ _ rfl a8]
  have run : parse_value (g + 6) ⟨some .LeftBrace, '"' :: (key ++ '"' :: ':' :: (litChars l1 ++ ',' :: '"' :: (key ++ '"' :: ':' :: (litChars l2 ++ ['\x7d']))))⟩ =
      some (.ok (.Object [(String.mk key, litValue l2)], ⟨none, []⟩)) := by
    simp only [parse_value, parse_object, a1, e3, parse_object_sep, a5, e5, a9,
      hmInsert_pair]
  simp only [parse_json, s1, Parser.parse, hg, run]
  rfl

/-- Witness for C2: the document with key `a`, first value `false`, second
value `true` parses to an object holding only `(a, true)`. -/
theorem claim_C2_witness :
    parse_json (dupKeyDoc ['a'] .ff .tt) = .ok (.Object [("a", .Boolean true)]) ∧
    hmGet [("a", .Boolean true)] "a" = some (.Boolean true) :=
  claim_C2 ['a'] .ff .tt (by decide)

/-! Machinery for claim C3: the decimal number grammar of the spec, and
the fact that `read_number` consumes exactly a grammar-conforming string
and hands it unchanged to the float parse. -/

/-- A nonempty run of decimal digits. -/
def isDigits (l : List Char) : Prop := l ≠ [] ∧ ∀ c ∈ l, c.isDigit = true

/-- The number grammar of the spec (§4.1 step 5): optional leading `-`,
mandatory digit run, optional `.` + digit run, optional `e`/`E` +
optional sign + digit run. -/
def JNum (s : List Char) : Prop :=
  ∃ sg I F E : List Char,
    s = sg ++ (I ++ (F ++ E)) ∧
    (sg = [] ∨ sg = ['-']) ∧
    isDigits I ∧
    (F = [] ∨ ∃ ds, F = '.' :: ds ∧ isDigits ds) ∧
    (E = [] ∨ ∃ (e : Char) (sg2 ds : List Char),
      E = e :: (sg2 ++ ds) ∧ (e = 'e' ∨ e = 'E') ∧
      (sg2 = [] ∨ sg2 = ['+'] ∨ sg2 = ['-']) ∧ isDigits ds)

lemma isDigit_facts (c : Char) (h : c.isDigit = true) :
    c ≠ '-' ∧ c ≠ '+' ∧ c ≠ '.' ∧ c ≠ 'e' ∧ c ≠ 'E' := by
  refine ⟨?_, ?_, ?_, ?_, ?_⟩ <;> (intro hc; subst hc; exact absurd h (by decide))

lemma takeWhile_digits_append (I r2 : List Char)
    (hI : ∀ c ∈ I, c.isDigit = true)
    (hr : ∀ c, r2.head? = some c → c.isDigit = false) :
    (I ++ r2).takeWhile (fun c => c.isDigit) = I := by
  induction I with
  | nil =>
    cases r2 with
    | nil => rfl
    | cons c r => simp [List.takeWhile_cons, hr c rfl]
  | cons a I ih =>
    simp only [List.cons_append, List.takeWhile_cons, hI a (by simp), if_true]
    rw [ih (fun c hc => hI c (by simp [hc]))]

lemma read_digits_eval (ns I r2 : List Char) (hI : isDigits I)
    (hr : ∀ c, r2.head? = some c → c.isDigit = false) :
    read_digits ns (I ++ r2) = .ok (ns ++ I, r2) := by
  obtain ⟨hne, hdig⟩ := hI
  have ht := takeWhile_digits_append I r2 hdig hr
  have hie : I.isEmpty = false := by
    cases I with
    | nil => exact absurd rfl hne
    | cons a l => rfl
  simp only [read_digits, ht, hie, Bool.false_eq_true, if_false, List.drop_left]

lemma grammar_E_head (E : List Char)
    (hE : E = [] ∨ ∃ (e : Char) (sg2 ds : List Char),
      E = e :: (sg2 ++ ds) ∧ (e = 'e' ∨ e = 'E') ∧
      (sg2 = [] ∨ sg2 = ['+'] ∨ sg2 = ['-']) ∧ isDigits ds) :
    ∀ c, E.head? = some c → c.isDigit = false := by
  rcases hE with rfl | ⟨e, sg2, ds, rfl, he, -, -⟩
  · intro c hc
    simp at hc
  · intro c hc
    simp at hc
    rcases he with rfl | rfl <;> simp [← hc]

lemma grammar_FE_head (F E : List Char)
    (hF : F = [] ∨ ∃ ds, F = '.' :: ds ∧ isDigits ds)
    (hE : E = [] ∨ ∃ (e : Char) (sg2 ds : List Char),
      E = e :: (sg2 ++ ds) ∧ (e = 'e' ∨ e = 'E') ∧
      (sg2 = [] ∨ sg2 = ['+'] ∨ sg2 = ['-']) ∧ isDigits ds) :
    ∀ c, (F ++ E).head? = some c → c.isDigit = false := by
  rcases hF with rfl | ⟨ds, rfl, -⟩
  · simpa using grammar_E_head E hE
  · intro c hc
    simp at hc
    simp [← hc]

lemma read_digits_eval_all (ns ds : List Char) (hds : isDigits ds) :
    read_digits ns ds = .ok (ns ++ ds, []) := by
  have := read_digits_eval ns ds [] hds (by intro c hc; simp at hc)
  simpa using this

lemma read_number_sign_eval (sg X : List Char) (hsg : sg = [] ∨ sg = ['-'])
    (hX : ∀ c, X.head? = some c → c.isDigit = true) :
    read_number_sign (sg ++ X) = (sg, X) := by
  rcases hsg with rfl | rfl
  · simp only [List.nil_append]
    unfold read_number_sign
    split
    · have := hX '-' rfl
      exact absurd this (by decide)
    · rfl
  · rfl

lemma parseF64_sign_eval (sg X : List Char) (hsg : sg = [] ∨ sg = ['-'])
    (hX : ∀ c, X.head? = some c → c.isDigit = true) :
    ∃ sgn : Int, parseF64_sign (sg ++ X) = (sgn, X) := by
  rcases hsg with rfl | rfl
  · refine ⟨1, ?_⟩
    simp only [List.nil_append]
    unfold parseF64_sign
    split
    · have := hX '-' rfl
      exact absurd this (by decide)
    · have := hX '+' rfl
      exact absurd this (by decide)
    · rfl
  · exact ⟨-1, rfl⟩

lemma read_number_frac_eval (ns F E : List Char)
    (hF : F = [] ∨ ∃ ds, F = '.' :: ds ∧ isDigits ds)
    (hE : E = [] ∨ ∃ (e : Char) (sg2 ds : List Char),
      E = e :: (sg2 ++ ds) ∧ (e = 'e' ∨ e = 'E') ∧
      (sg2 = [] ∨ sg2 = ['+'] ∨ sg2 = ['-']) ∧ isDigits ds) :
    read_number_frac ns (F ++ E) = .ok (ns ++ F, E) := by
  rcases hF with rfl | ⟨ds, rfl, hds⟩
  · simp only [List.nil_append, List.append_nil]
    rcases hE with rfl | ⟨e, sg2, ds, rfl, he, -, -⟩
    · rfl
    · rcases he with rfl | rfl <;> rfl
  · have h1 : read_number_frac ns (('.' :: ds) ++ E) =
        read_digits (ns ++ ['.']) (ds ++ E) := rfl
    rw [h1, read_digits_eval _ ds E hds (grammar_E_head E hE)]
    simp

lemma read_number_exp_eval_nosign (ns : List Char) (e : Char) (ds : List Char)
    (he : e = 'e' ∨ e = 'E') (hds : isDigits ds) :
    read_number_exp ns (e :: ds) = .ok ((ns ++ [e]) ++ ds, []) := by
  obtain ⟨hne, hdig⟩ := hds
  cases ds with
  | nil => exact absurd rfl hne
  | cons d ds' =>
    have hd := isDigit_facts d (hdig d (by simp))
    have hno : ¬(d = '+' ∨ d = '-') := by
      rintro (rfl | rfl)
      · exact hd.2.1 rfl
      · exact hd.1 rfl
    simp only [read_number_exp, he, if_true, hno, if_false]
    rw [read_digits_eval_all _ _ ⟨by simp, fun c hc => hdig c (by simp [hc])⟩]

lemma read_number_exp_eval (ns E : List Char)
    (hE : E = [] ∨ ∃ (e : Char) (sg2 ds : List Char),
      E = e :: (sg2 ++ ds) ∧ (e = 'e' ∨ e = 'E') ∧
      (sg2 = [] ∨ sg2 = ['+'] ∨ sg2 = ['-']) ∧ isDigits ds) :
    read_number_exp ns E = .ok (ns ++ E, []) := by
  rcases hE with rfl | ⟨e, sg2, ds, rfl, he, hsg2, hds⟩
  · simp [read_number_exp]
  · rcases hsg2 with rfl | rfl | rfl
    · rw [show (e :: (([] : List Char) ++ ds)) = e :: ds from by simp]
      exact (read_number_exp_eval_nosign ns e ds he hds).trans (by simp)
    · rcases he with rfl | rfl
      · rw [show read_number_exp ns ('e' :: (['+'] ++ ds)) =
            read_digits (ns ++ ['e', '+']) ds from rfl,
          read_digits_eval_all _ _ hds]
        simp
      · rw [show read_number_exp ns ('E' :: (['+'] ++ ds)) =
            read_digits (ns ++ ['E', '+']) ds from rfl,
          read_digits_eval_all _ _ hds]
        simp
    · rcases he with rfl | rfl
      · rw [show read_number_exp ns ('e' :: (['-'] ++ ds)) =
            read_digits (ns ++ ['e', '-']) ds from rfl,
          read_digits_eval_all _ _ hds]
        simp
      · rw [show read_number_exp ns ('E' :: (['-'] ++ ds)) =
            read_digits (ns ++ ['E', '-']) ds from rfl,
          read_digits_eval_all _ _ hds]
        simp

lemma digit_char_facts (c : Char) (h : c.isDigit = true) :
    isRustWhitespace c = false ∧ c ≠ '\x7b' ∧ c ≠ '\x7d' ∧ c ≠ '[' ∧ c ≠ ']' ∧
    c ≠ ':' ∧ c ≠ ',' ∧ c ≠ '"' ∧ c ≠ 'n' ∧ c ≠ 't' ∧ c ≠ 'f' := by
  have hb : 48 ≤ c.toNat ∧ c.toNat ≤ 57 := by
    simp [Char.isDigit] at h
    exact h
  refine ⟨?_, ?_, ?_, ?_, ?_, ?_, ?_, ?_, ?_, ?_, ?_⟩
  · simp [isRustWhitespace]
    omega
  all_goals (intro hc; subst hc; exact absurd h (by decide))

lemma parseF64_frac_eval (F E : List Char)
    (hF : F = [] ∨ ∃ ds, F = '.' :: ds ∧ isDigits ds)
    (hE : E = [] ∨ ∃ (e : Char) (sg2 ds : List Char),
      E = e :: (sg2 ++ ds) ∧ (e = 'e' ∨ e = 'E') ∧
      (sg2 = [] ∨ sg2 = ['+'] ∨ sg2 = ['-']) ∧ isDigits ds) :
    ∃ fp, parseF64_frac (F ++ E) = (fp, E) := by
  rcases hF with rfl | ⟨ds, rfl, hds⟩
  · refine ⟨[], ?_⟩
    simp only [List.nil_append]
    rcases hE with rfl | ⟨e, sg2, ds, rfl, he, -, -⟩
    · rfl
    · rcases he with rfl | rfl <;> rfl
  · refine ⟨ds, ?_⟩
    have h1 : parseF64_frac (('.' :: ds) ++ E) =
        ((ds ++ E).takeWhile (fun c => c.isDigit),
          (ds ++ E).drop ((ds ++ E).takeWhile (fun c => c.isDigit)).length) := rfl
    rw [h1, takeWhile_digits_append ds E hds.2 (grammar_E_head E hE), List.drop_left]

lemma parseF64_esign_eval (sg2 ds : List Char)
    (hsg2 : sg2 = [] ∨ sg2 = ['+'] ∨ sg2 = ['-']) (hds : isDigits ds) :
    ∃ b, parseF64_esign (sg2 ++ ds) = (b, ds) := by
  obtain ⟨hne, hdig⟩ := hds
  rcases hsg2 with rfl | rfl | rfl
  · refine ⟨false, ?_⟩
    simp only [List.nil_append]
    cases ds with
    | nil => exact absurd rfl hne
    | cons d ds' =>
      have hd := isDigit_facts d (hdig d (by simp))
      unfold parseF64_esign
      split
      · rename_i r2 heq
        injection heq with h1 h2
        exact absurd h1 hd.1
      · rename_i r2 heq
        injection heq with h1 h2
        exact absurd h1 hd.2.1
      · rfl
  · exact ⟨false, rfl⟩
  · exact ⟨true, rfl⟩

lemma parseF64_tail_eval (mN : Int) (mD : Nat) (E : List Char)
    (hE : E = [] ∨ ∃ (e : Char) (sg2 ds : List Char),
      E = e :: (sg2 ++ ds) ∧ (e = 'e' ∨ e = 'E') ∧
      (sg2 = [] ∨ sg2 = ['+'] ∨ sg2 = ['-']) ∧ isDigits ds) :
    ∃ q, parseF64_tail mN mD E = some q := by
  rcases hE with rfl | ⟨e, sg2, ds, rfl, he, hsg2, hds⟩
  · exact ⟨_, rfl⟩
  · obtain ⟨b, hb⟩ := parseF64_esign_eval sg2 ds hsg2 hds
    obtain ⟨hne, hdig⟩ := hds
    have htw : ds.takeWhile (fun c => c.isDigit) = ds := by
      have := takeWhile_digits_append ds [] hdig (by intro c hc; simp at hc)
      simpa using this
    have hie : ds.isEmpty = false := by
      cases ds with
      | nil => exact absurd rfl hne
      | cons a l => rfl
    have hcond : ¬(ds.isEmpty = true ∨ ¬(ds.drop ds.length).isEmpty = true) := by
      simp [hie, List.drop_length]
    simp only [parseF64_tail, he, if_true, hb, htw, hcond, if_false]
    cases b
    · exact ⟨_, rfl⟩
    · exact ⟨_, rfl⟩

lemma grammar_head_digit (I F E : List Char) (hI : isDigits I) :
    ∀ c, (I ++ (F ++ E)).head? = some c → c.isDigit = true := by
  obtain ⟨hne, hdig⟩ := hI
  cases I with
  | nil => exact absurd rfl hne
  | cons d I' =>
    intro c hc
    simp at hc
    rw [← hc]
    exact hdig d (by simp)

lemma parseF64_grammar (sg I F E : List Char)
    (hsg : sg = [] ∨ sg = ['-'])
    (hI : isDigits I)
    (hF : F = [] ∨ ∃ ds, F = '.' :: ds ∧ isDigits ds)
    (hE : E = [] ∨ ∃ (e : Char) (sg2 ds : List Char),
      E = e :: (sg2 ++ ds) ∧ (e = 'e' ∨ e = 'E') ∧
      (sg2 = [] ∨ sg2 = ['+'] ∨ sg2 = ['-']) ∧ isDigits ds) :
    ∃ q, parseF64 (sg ++ (I ++ (F ++ E))) = some q := by
  obtain ⟨sgn, hsgn⟩ := parseF64_sign_eval sg _ hsg (grammar_head_digit I F E hI)
  have htwI : (I ++ (F ++ E)).takeWhile (fun c => c.isDigit) = I :=
    takeWhile_digits_append I _ hI.2 (grammar_FE_head F E hF hE)
  have hIe : I.isEmpty = false := by
    cases' hI with hne hdig
    cases I with
    | nil => exact absurd rfl hne
    | cons a l => rfl
  obtain ⟨fp, hfp⟩ := parseF64_frac_eval F E hF hE
  obtain ⟨q, hq⟩ := parseF64_tail_eval (sgn * (digitsToNat (I ++ fp) : Int)) (10 ^ fp.length) E hE
  refine ⟨q, ?_⟩
  unfold parseF64
  rw [hsgn]
  simp only [htwI, List.drop_left, hIe, Bool.false_eq_true, if_false, hfp]
  exact hq

lemma read_number_grammar (sg I F E : List Char)
    (hsg : sg = [] ∨ sg = ['-'])
    (hI : isDigits I)
    (hF : F = [] ∨ ∃ ds, F = '.' :: ds ∧ isDigits ds)
    (hE : E = [] ∨ ∃ (e : Char) (sg2 ds : List Char),
      E = e :: (sg2 ++ ds) ∧ (e = 'e' ∨ e = 'E') ∧
      (sg2 = [] ∨ sg2 = ['+'] ∨ sg2 = ['-']) ∧ isDigits ds) :
    ∃ q, parseF64 (sg ++ (I ++ (F ++ E))) = some q ∧
      read_number (sg ++ (I ++ (F ++ E))) = .ok (some (.Number q), []) := by
  obtain ⟨q, hq⟩ := parseF64_grammar sg I F E hsg hI hF hE
  refine ⟨q, hq, ?_⟩
  unfold read_number
  rw [read_number_sign_eval sg _ hsg (grammar_head_digit I F E hI)]
  simp only [read_digits_eval sg I (F ++ E) hI (grammar_FE_head F E hF hE),
    read_number_frac_eval (sg ++ I) F E hF hE,
    read_number_exp_eval ((sg ++ I) ++ F) E hE]
  rw [show ((sg ++ I) ++ F) ++ E = sg ++ (I ++ (F ++ E)) from by
    simp [List.append_assoc]]
  rw [hq]

lemma next_token_number (c : Char) (r : List Char) (hc : c.isDigit = true ∨ c = '-') :
    next_token (c :: r) = read_number (c :: r) := by
  rcases hc with hc | rfl
  · obtain ⟨hws, h1, h2, h3, h4, h5, h6, h7, h8, h9, h10⟩ := digit_char_facts c hc
    unfold next_token
    rw [show skip_whitespace (c :: r) = c :: r from by simp [skip_whitespace, hws]]
    simp only [h1, h2, h3, h4, h5, h6, h7, h8, if_false]
    rw [if_neg (by rintro (rfl | rfl); exacts [h9 rfl, h10 rfl])]
    rw [if_pos (Or.inl hc)]
  · rfl

/-- Claim C3: every decimal string matching the number grammar parses to
the Number holding the exact decimal value (the embedded
`str::parse::<f64>` result `parseF64`); the two example inputs evaluate
to `12300` and `-123456/1000`. -/
theorem claim_C3 :
    (∀ s : List Char, JNum s →
      ∃ q, parseF64 s = some q ∧ parse_json s = .ok (.Number q)) ∧
    parse_json "1.23e4".data = .ok (.Number 12300) ∧
    parse_json "-123.456".data = .ok (.Number (Rat.divInt (-123456) 1000)) ∧
    Rat.divInt (-123456) 1000 = -123456 / 1000 := by
  refine ⟨?_, rfl, rfl, by rw [Rat.divInt_eq_div]; norm_num⟩
  rintro s ⟨sg, I, F, E, rfl, hsg, hI, hF, hE⟩
  obtain ⟨q, hq, hrn⟩ := read_number_grammar sg I F E hsg hI hF hE
  refine ⟨q, hq, ?_⟩
  have hnt : next_token (sg ++ (I ++ (F ++ E))) = .ok (some (.Number q), []) := by
    rcases hsg with rfl | rfl
    · obtain ⟨hne, hdig⟩ := hI
      cases I with
      | nil => exact absurd rfl hne
      | cons d I' =>
        simp only [List.nil_append, List.cons_append] at hrn ⊢
        rw [next_token_number d _ (Or.inl (hdig d (by simp)))]
        exact hrn
    · simp only [List.cons_append, List.nil_append] at hrn ⊢
      rw [next_token_number '-' _ (Or.inr rfl)]
      exact hrn
  simp only [parse_json, hnt]
  rfl

/-- Witness for the general part of C3 at the input `1.23e4`. -/
theorem claim_C3_witness : parse_json "1.23e4".data = .ok (.Number 12300) := by
  have hterm : JNum "1.23e4".data :=
    ⟨[], ['1'], ['.', '2', '3'], ['e', '4'], rfl, Or.inl rfl,
      ⟨by decide, by decide⟩,
      Or.inr ⟨['2', '3'], rfl, by decide, by decide⟩,
      Or.inr ⟨'e', [], ['4'], rfl, Or.inl rfl, Or.inl rfl, by decide, by decide⟩⟩
  obtain ⟨q, h1, h2⟩ := claim_C3.1 "1.23e4".data hterm
  have h3 : parseF64 "1.23e4".data = some 12300 := rfl
  rw [h1] at h3
  injection h3 with h4
  rw [h4] at h2
  exact h2

/-! Machinery for claim C10: a panic-explicit model of `read_number` and
`read_digits`, in which every `self.input.next().unwrap()` of the source
is modelled as an explicit peek (`List.head?`) whose `none` case is a
panic value, proved equivalent to the `Except`-valued embedding (hence
panic-free). -/

/-- Result of a fallible Rust computation with `panic!` made explicit. -/
inductive PResult (α : Type) : Type where
  | ok (a : α)
  | err (e : JsonError)
  | panicked

/-- An `Except` value seen as a `PResult` (never a panic). -/
def pofExcept {α : Type} : Except JsonError α → PResult α
  | .ok a => .ok a
  | .error e => .err e

/-- The `read_digits` loop with the peek / `next().unwrap()` pair made
explicit: `while let Some(&c) = peek { if digit { push(next().unwrap()) } }`,
then the `has_digit` check. -/
def read_digitsP (number_str input : List Char) (has_digit : Bool) :
    PResult (List Char × List Char) :=
  match _hh : input.head? with
  | some c =>
    if c.isDigit then
      match input.head? with
      | some c2 => read_digitsP (number_str ++ [c2]) (input.drop 1) true
      | none => .panicked
    else
      if has_digit then .ok (number_str, input)
      else .err (.InvalidNumber "Expected at least one digit")
  | none =>
    if has_digit then .ok (number_str, input)
    else .err (.InvalidNumber "Expected at least one digit")
termination_by input.length
decreasing_by
  simp only [List.length_drop]
  cases input with
  | nil => simp at _hh
  | cons a l => simp

/-- Sign step of `read_number` with the unwrap explicit. -/
def read_number_signP (input : List Char) : PResult (List Char × List Char) :=
  match input.head? with
  | some c =>
    if c = '-' then
      match input.head? with
      | some c2 => .ok ([c2], input.drop 1)
      | none => .panicked
    else .ok ([], input)
  | none => .ok ([], input)

/-- Fraction step of `read_number` with the unwrap explicit. -/
def read_number_fracP (ns1 in1 : List Char) : PResult (List Char × List Char) :=
  match in1.head? with
  | some c =>
    if c = '.' then
      match in1.head? with
      | some c2 => read_digitsP (ns1 ++ [c2]) (in1.drop 1) false
      | none => .panicked
    else .ok (ns1, in1)
  | none => .ok (ns1, in1)

/-- Exponent step of `read_number` with the three unwraps explicit. -/
def read_number_expP (ns2 in2 : List Char) : PResult (List Char × List Char) :=
  match in2.head? with
  | some c =>
    if c = 'e' ∨ c = 'E' then
      match in2.head? with
      | some c2 =>
        match (in2.drop 1).head? with
        | some s =>
          if s = '+' ∨ s = '-' then
            match (in2.drop 1).head? with
            | some s2 => read_digitsP ((ns2 ++ [c2]) ++ [s2]) ((in2.drop 1).drop 1) false
            | none => .panicked
          else read_digitsP (ns2 ++ [c2]) (in2.drop 1) false
        | none => read_digitsP (ns2 ++ [c2]) (in2.drop 1) false
      | none => .panicked
    else .ok (ns2, in2)
  | none => .ok (ns2, in2)

/-- `read_number` with every unwrap explicit. -/
def read_numberP (input : List Char) : PResult (Option Token × List Char) :=
  match read_number_signP input with
  | .panicked => .panicked
  | .err e => .err e
  | .ok (ns0, in0) =>
    match read_digitsP ns0 in0 false with
    | .panicked => .panicked
    | .err e => .err e
    | .ok (ns1, in1) =>
      match read_number_fracP ns1 in1 with
      | .panicked => .panicked
      | .err e => .err e
      | .ok (ns2, in2) =>
        match read_number_expP ns2 in2 with
        | .panicked => .panicked
        | .err e => .err e
        | .ok (ns3, in3) =>
          match parseF64 ns3 with
          | some q => .ok (some (.Number q), in3)
          | none => .err (.InvalidNumber (String.mk ns3))

lemma read_digitsP_eq (input : List Char) : ∀ ns,
    read_digitsP ns input true =
      .ok (ns ++ input.takeWhile (fun c => c.isDigit),
        input.drop (input.takeWhile (fun c => c.isDigit)).length) ∧
    read_digitsP ns input false = pofExcept (read_digits ns input) := by
  induction input with
  | nil =>
    intro ns
    constructor
    · rw [read_digitsP.eq_def]
      simp
    · rw [read_digitsP.eq_def]
      simp [read_digits, pofExcept]
  | cons c r ih =>
    intro ns
    by_cases hd : c.isDigit
    · constructor
      · rw [read_digitsP.eq_def]
        simp only [List.head?_cons, hd, if_true, List.drop_one, List.tail_cons]
        rw [(ih (ns ++ [c])).1]
        simp [List.takeWhile_cons, hd]
      · rw [read_digitsP.eq_def]
        simp only [List.head?_cons, hd, if_true, List.drop_one, List.tail_cons]
        rw [(ih (ns ++ [c])).1]
        have hne : ((c :: r).takeWhile (fun c => c.isDigit)).isEmpty = false := by
          simp [List.takeWhile_cons, hd]
        simp [read_digits, pofExcept, List.takeWhile_cons, hd, hne]
    · constructor
      · rw [read_digitsP.eq_def]
        simp [List.takeWhile_cons, hd]
      · rw [read_digitsP.eq_def]
        simp [read_digits, pofExcept, List.takeWhile_cons, hd]

lemma read_number_signP_eq (input : List Char) :
    read_number_signP input = .ok (read_number_sign input) := by
  cases input with
  | nil => rfl
  | cons c r =>
    by_cases hc : c = '-'
    · subst hc
      rfl
    · simp only [read_number_signP, List.head?_cons, hc, if_false]
      unfold read_number_sign
      split
      · rename_i rest heq
        injection heq with h1 h2
        exact absurd h1 hc
      · rfl

lemma read_number_fracP_eq (ns1 in1 : List Char) :
    read_number_fracP ns1 in1 = pofExcept (read_number_frac ns1 in1) := by
  cases in1 with
  | nil => rfl
  | cons c r =>
    by_cases hc : c = '.'
    · subst hc
      show read_digitsP (ns1 ++ ['.']) r false = _
      rw [(read_digitsP_eq r (ns1 ++ ['.'])).2]
      rfl
    · simp only [read_number_fracP, List.head?_cons, hc, if_false]
      unfold read_number_frac
      split
      · rename_i rest heq
        injection heq with h1 h2
        exact absurd h1 hc
      · rfl

lemma read_number_expP_eq (ns2 in2 : List Char) :
    read_number_expP ns2 in2 = pofExcept (read_number_exp ns2 in2) := by
  cases in2 with
  | nil => rfl
  | cons c r =>
    by_cases hc : c = 'e' ∨ c = 'E'
    · simp only [read_number_expP, List.head?_cons, hc, if_true, List.drop_one,
        List.tail_cons]
      rw [read_number_exp.eq_def]
      simp only
      rw [if_pos hc]
      cases r with
      | nil =>
        rw [(read_digitsP_eq [] (ns2 ++ [c])).2]
        rfl
      | cons s r2 =>
        by_cases hs : s = '+' ∨ s = '-'
        · simp only [List.head?_cons, hs, if_true, List.drop_one, List.tail_cons]
          rw [(read_digitsP_eq r2 ((ns2 ++ [c]) ++ [s])).2]
          rw [show (ns2 ++ [c]) ++ [s] = ns2 ++ [c, s] from by simp]
        · simp only [List.head?_cons, hs, if_false]
          rw [(read_digitsP_eq (s :: r2) (ns2 ++ [c])).2]
    · simp only [read_number_expP, List.head?_cons, hc, if_false]
      rw [read_number_exp.eq_def]
      simp only
      rw [if_neg hc]
      rfl

lemma read_numberP_eq (input : List Char) :
    read_numberP input = pofExcept (read_number input) := by
  unfold read_numberP read_number
  rw [read_number_signP_eq]
  rcases hs : read_number_sign input with ⟨ns0, in0⟩
  simp only
  rw [(read_digitsP_eq in0 ns0).2]
  cases hd : read_digits ns0 in0 with
  | error e => rfl
  | ok pr1 =>
    rcases pr1 with ⟨ns1, in1⟩
    simp only [pofExcept]
    rw [read_number_fracP_eq]
    cases hf : read_number_frac ns1 in1 with
    | error e => rfl
    | ok pr2 =>
      rcases pr2 with ⟨ns2, in2⟩
      simp only [pofExcept]
      rw [read_number_expP_eq]
      cases he : read_number_exp ns2 in2 with
      | error e => rfl
      | ok pr3 =>
        rcases pr3 with ⟨ns3, in3⟩
        simp only [pofExcept]
        cases hp : parseF64 ns3 <;> rfl

/-- Claim C10: `parse_json` is total — it always returns a value or an
error — and the `unwrap` calls inside `read_number`/`read_digits` never
fire: the panic-explicit model of those functions never produces the
panic value and coincides with the `Except`-valued embedding. -/
theorem claim_C10 :
    (∀ ns input b, read_digitsP ns input b ≠ .panicked) ∧
    (∀ input, read_numberP input ≠ .panicked) ∧
    (∀ input, read_numberP input = pofExcept (read_number input)) ∧
    (∀ s : List Char, (∃ v, parse_json s = .ok v) ∨ (∃ e, parse_json s = .error e)) := by
  have hdig : ∀ ns input b, read_digitsP ns input b ≠ .panicked := by
    intro ns input b
    cases b
    · rw [(read_digitsP_eq input ns).2]
      cases read_digits ns input <;> simp [pofExcept]
    · rw [(read_digitsP_eq input ns).1]
      simp
  refine ⟨hdig, ?_, read_numberP_eq, ?_⟩
  · intro input
    rw [read_numberP_eq]
    cases read_number input <;> simp [pofExcept]
  · intro s
    cases h : parse_json s with
    | ok v => exact Or.inl ⟨v, rfl⟩
    | error e => exact Or.inr ⟨e, rfl⟩
